import Mathlib

/-!
# A shallow embedding of `eval.c`

`eval.c` is a one-file expression evaluator: a lexer (`next_token`), a
precedence-climbing parser (`parse_expression`), a tree evaluator (`eval`) and
the driver `main`.

Modelling decisions.

* The input is a C string.  The cursor `*next_ptr` is modelled by the list of
  characters from the cursor up to (not including) the terminating NUL;
  advancing the cursor drops the head of the list.
* `exit(-1)` becomes `Except.error`, with one constructor of `Error` per
  `printf`/`exit` site of the source.  Behaviour the C standard leaves undefined
  (reading past the end of `BP_VALUES`, a `double` to `long long` conversion
  whose value does not fit, `%` by zero, `LLONG_MIN % -1`) is an error of its
  own as well: the model never invents a value for it.
* The read past the end of `BP_VALUES` is modelled twice.  `parse_expression`
  stops at it, which marks the runs that depend on what lies behind the table.
  `parse_expression_mem` reads on, as the compiled program does, with the bytes
  behind the table as a parameter; what is proved of it for every content of
  those bytes holds of every build.  The two agree wherever the first does not
  stop at such a read (`parse_mem_agrees`).
* `double` is a parameter.  The operations the source takes from the platform
  (`+ - * /` on doubles, `pow`, the conversion from an integer) are the fields
  of `DoubleOps`; `val` gives the rational number a finite double stands for
  (`none` for an infinity or a NaN), from which the conversion to `long long`
  is defined as C defines it.  Every theorem that is stated for an arbitrary
  `DoubleOps` therefore holds for IEEE 754 arithmetic in particular.
* Recursion in `parse_expression` is bounded by a fuel argument; `main` gives
  it more fuel than the input has characters, which is always enough
  (`parse_enough_fuel`, `parse_expression_fuel`).
* The pointers `next` and `token` that `parse_expression` shares with its
  recursive calls become explicit state: every call returns the cursor and the
  token it leaves behind.
* `malloc` is taken to succeed and the stack to be deep enough; `free_ast` does
  not change what `main` prints and is left out of `main`.  It is modelled on
  its own: every node is an allocation, named by the way to it from the root,
  and `free_ast` returns the nodes it passes to `free`.
* Two instances of `DoubleOps` run the definitions on concrete inputs:
  `exactOps`, arithmetic without rounding, and `binary64Ops`, the integers with
  the rounding of IEEE 754 binary64.
-/

namespace EvalC

/-! ## Tokens -/

/-- The enumeration `TokenType` of the source. -/
inductive TokenType where
  | TT_EOI
  | TT_NUMBER
  | TT_PLUS
  | TT_MINUS
  | TT_STAR
  | TT_SLASH
  | TT_PERCENT
  | TT_STAR_STAR
  deriving DecidableEq, Repr

/-- The integer value of an enumerator of `TokenType`. -/
def TokenType.id : TokenType → Nat
  | .TT_EOI => 0
  | .TT_NUMBER => 1
  | .TT_PLUS => 2
  | .TT_MINUS => 3
  | .TT_STAR => 4
  | .TT_SLASH => 5
  | .TT_PERCENT => 6
  | .TT_STAR_STAR => 7

/-- The struct `Token`: the kind, and the payload that is meaningful only
when the kind is `TT_NUMBER`. -/
structure Token (F : Type) where
  ty : TokenType
  maybe_number : F
  deriving DecidableEq, Repr

/-- Every way a run can stop without a value. -/
inductive Error where
  /-- Line 112, `Invalid character '%c'`: the lexer met a character it does not know. -/
  | invalid_character (c : Char)
  /-- Line 199, `invalid token with id = %d`: the primary is not a number. -/
  | invalid_token (id : Nat)
  /-- Line 232, `%d not impl`: the token after an operand is neither an operator nor the end. -/
  | token_not_impl (id : Nat)
  /-- Line 280, `not impl`: `eval` met a tag that is no operator. -/
  | not_impl
  /-- Line 287, the usage message of `main`. -/
  | usage
  /-- Read of the member `number` of a node that holds two children. -/
  | wrong_member
  /-- Read of `BP_VALUES[index]` with `index` outside the array. -/
  | out_of_bounds (index : Nat)
  /-- Conversion of a double to `long long` whose value has no `long long`. -/
  | bad_conversion
  /-- The `%` of two `long long` with divisor zero or an unrepresentable quotient. -/
  | bad_remainder
  /-- The model ran out of fuel (no counterpart in the source). -/
  | out_of_fuel
  deriving DecidableEq, Repr

/-! ## The platform's `double` -/

/-- What the source uses of the type `double`. -/
structure DoubleOps (F : Type) where
  /-- Conversion `(double) n` of an integer. -/
  ofInt : Int → F
  /-- Operator `+` on doubles. -/
  add : F → F → F
  /-- Operator `-` on doubles. -/
  sub : F → F → F
  /-- Operator `*` on doubles. -/
  mul : F → F → F
  /-- Operator `/` on doubles. -/
  div : F → F → F
  /-- Function `pow` of `math.h`. -/
  pow : F → F → F
  /-- Value of a finite double as a rational number; `none` for infinities and NaN. -/
  val : F → Option ℚ

/-- Smallest `long long`. -/
def LLONG_MIN : Int := -(2 ^ 63)

/-- Largest `long long`. -/
def LLONG_MAX : Int := 2 ^ 63 - 1

/-- Discard the fractional part of a rational number (round toward zero). -/
def trunc (q : ℚ) : Int := Int.tdiv q.num q.den

/-- Conversion `(long long) x` of a double: the fractional part is discarded; the
behaviour is undefined when the integral part has no `long long` or `x` is not
finite. -/
def to_long_long {F : Type} (A : DoubleOps F) (x : F) : Except Error Int :=
  match A.val x with
  | none => .error .bad_conversion
  | some q =>
    if LLONG_MIN ≤ trunc q ∧ trunc q ≤ LLONG_MAX then .ok (trunc q)
    else .error .bad_conversion

/-- Operator `%` on two `long long`: the remainder of the division that rounds
toward zero; undefined for a zero divisor and when the quotient is not
representable. -/
def rem_long_long (a b : Int) : Except Error Int :=
  if b = 0 then .error .bad_remainder
  else if a = LLONG_MIN ∧ b = -1 then .error .bad_remainder
  else .ok (Int.tmod a b)

/-! ## Lexer -/

/-- The five characters of the whitespace cases of `next_token`. -/
def is_space (c : Char) : Bool :=
  c = ' ' || c = '\n' || c = '\t' || c = '\x0c' || c = '\r'

/-- The ten characters of the digit cases of `next_token`. -/
def is_digit (c : Char) : Bool :=
  c = '0' || c = '1' || c = '2' || c = '3' || c = '4' ||
  c = '5' || c = '6' || c = '7' || c = '8' || c = '9'

/-- The expression `next - '0'`. -/
def digit_value (c : Char) : Int := (c.toNat : Int) - 48

/-- The inner loop of `next_token` (lines 59-82): while the cursor is at a
digit, fold it into `num` and advance. -/
def scan_digits {F : Type} (A : DoubleOps F) (num : F) : List Char → F × List Char
  | [] => (num, [])
  | c :: rest =>
    if is_digit c then
      scan_digits A (A.add (A.mul num (A.ofInt 10)) (A.ofInt (digit_value c))) rest
    else (num, c :: rest)

/-- Function `next_token` (lines 28-116): returns the cursor and the token after the call. -/
def next_token {F : Type} (A : DoubleOps F) : List Char → Token F → Except Error (List Char × Token F)
  | [], token => .ok ([], { token with ty := .TT_EOI })
  | c :: rest, token =>
    if c = '\x00' then .ok (c :: rest, { token with ty := .TT_EOI })
    else if is_space c then next_token A rest token
    else if is_digit c then
      let r := scan_digits A (A.ofInt (digit_value c)) rest
      .ok (r.2, { ty := .TT_NUMBER, maybe_number := r.1 })
    else if c = '+' then .ok (rest, { token with ty := .TT_PLUS })
    else if c = '-' then .ok (rest, { token with ty := .TT_MINUS })
    else if c = '*' then
      match rest with
      | [] => .ok (rest, { token with ty := .TT_STAR })
      | c2 :: rest2 =>
        if c2 = '*' then .ok (rest2, { token with ty := .TT_STAR_STAR })
        else .ok (rest, { token with ty := .TT_STAR })
    else if c = '%' then .ok (rest, { token with ty := .TT_PERCENT })
    else if c = '/' then .ok (rest, { token with ty := .TT_SLASH })
    else .error (.invalid_character c)

/-! ## Operators and binding powers -/

/-- The enumeration `Operator`, by value. -/
abbrev Operator := Nat

def OP_ADD : Operator := 2
def OP_SUB : Operator := 3
def OP_MUL : Operator := 4
def OP_DIV : Operator := 5
def OP_REM : Operator := 6
def OP_EXP : Operator := 7

/-- The array `BP_VALUES[16]`. -/
def BP_VALUES : List Int :=
  [0, 0,
   0, 0,
   20, 21,
   20, 21,
   22, 23,
   22, 23,
   22, 23,
   24, 25]

/-- Read of `BP_VALUES[i]`; outside the array the behaviour is undefined. -/
def read_bp (i : Nat) : Except Error Int :=
  match BP_VALUES.get? i with
  | some v => .ok v
  | none => .error (.out_of_bounds i)

/-- Function `get_left_bp`: `BP_VALUES[op << 2]`. -/
def get_left_bp (op : Operator) : Except Error Int :=
  read_bp (op <<< 2)

/-- Function `get_right_bp`: `BP_VALUES[(op << 2) + 1]`. -/
def get_right_bp (op : Operator) : Except Error Int :=
  read_bp ((op <<< 2) + 1)

/-! ## Expression trees -/

/-- The marker `ET_NUMBER`. -/
def ET_NUMBER : Nat := 1

/-- The struct `Expression`: a literal (`op_or_ty = ET_NUMBER`, member `number`
of the union) or a node with two children (`op_or_ty` holds the operator,
member `expr` of the union). -/
inductive Expression (F : Type) where
  | number (number : F)
  | expr (op_or_ty : Nat) (left right : Expression F)
  deriving DecidableEq, Repr

/-! ## Parser -/

/-- What a call leaves behind: the tree it returns, the cursor and the token. -/
abbrev Parsed (F : Type) := Expression F × List Char × Token F

mutual

/-- Function `parse_expression` (lines 183-236), up to the loop. -/
def parse_expression {F : Type} (A : DoubleOps F) :
    Nat → List Char → Token F → Int → Except Error (Parsed F)
  | 0, _, _, _ => .error .out_of_fuel
  | fuel + 1, next, token, min_bp =>
    match next_token A next token with
    | .error e => .error e
    | .ok (next1, token1) =>
      match token1.ty with
      | .TT_NUMBER => parse_loop A fuel next1 token1 min_bp (.number token1.maybe_number)
      | _ => .error (.invalid_token token1.ty.id)

/-- The loop `while(1)` of `parse_expression` (lines 203-235), entered with
the tree built so far in `left_side`. -/
def parse_loop {F : Type} (A : DoubleOps F) :
    Nat → List Char → Token F → Int → Expression F → Except Error (Parsed F)
  | 0, _, _, _, _ => .error .out_of_fuel
  | fuel + 1, next, token, min_bp, left_side =>
    match next_token A next token with
    | .error e => .error e
    | .ok (next1, token1) =>
      match token1.ty with
      | .TT_EOI => .ok (left_side, next1, token1)
      | .TT_PLUS | .TT_MINUS | .TT_STAR | .TT_SLASH | .TT_PERCENT | .TT_STAR_STAR =>
        let op : Operator := token1.ty.id
        match get_left_bp op with
        | .error e => .error e
        | .ok lbp =>
          if lbp < min_bp then .ok (left_side, next1, token1)
          else
            match get_right_bp op with
            | .error e => .error e
            | .ok rbp =>
              match parse_expression A fuel next1 token1 rbp with
              | .error e => .error e
              | .ok (right, next2, token2) =>
                parse_loop A fuel next2 token2 min_bp (.expr op left_side right)
      | _ => .error (.token_not_impl token1.ty.id)

end

/-! ## The parser that reads on behind the table

The source does not check the index of `BP_VALUES`, and the compiled program
reads whatever byte lies behind the array.  `parse_expression` above stops at
such a read, to mark it.  The definitions below read on instead: the bytes
behind the array are the parameter `mem`, and what is proved for every `mem`
holds for the compiled program whatever lies there. -/

/-- Read of `BP_VALUES[i]` without a check: inside the array the entry, outside
it the byte `mem i`. -/
def read_bp_mem (mem : Nat → Int) (i : Nat) : Int :=
  match BP_VALUES.get? i with
  | some v => v
  | none => mem i

/-- Function `get_left_bp`, reading on behind the table. -/
def get_left_bp_mem (mem : Nat → Int) (op : Operator) : Int :=
  read_bp_mem mem (op <<< 2)

/-- Function `get_right_bp`, reading on behind the table. -/
def get_right_bp_mem (mem : Nat → Int) (op : Operator) : Int :=
  read_bp_mem mem ((op <<< 2) + 1)

mutual

/-- Function `parse_expression` (lines 183-236), up to the loop, reading on
behind the table. -/
def parse_expression_mem {F : Type} (A : DoubleOps F) (mem : Nat → Int) :
    Nat → List Char → Token F → Int → Except Error (Parsed F)
  | 0, _, _, _ => .error .out_of_fuel
  | fuel + 1, next, token, min_bp =>
    match next_token A next token with
    | .error e => .error e
    | .ok (next1, token1) =>
      match token1.ty with
      | .TT_NUMBER =>
        parse_loop_mem A mem fuel next1 token1 min_bp (.number token1.maybe_number)
      | _ => .error (.invalid_token token1.ty.id)

/-- The loop `while(1)` of `parse_expression` (lines 203-235), reading on behind
the table. -/
def parse_loop_mem {F : Type} (A : DoubleOps F) (mem : Nat → Int) :
    Nat → List Char → Token F → Int → Expression F → Except Error (Parsed F)
  | 0, _, _, _, _ => .error .out_of_fuel
  | fuel + 1, next, token, min_bp, left_side =>
    match next_token A next token with
    | .error e => .error e
    | .ok (next1, token1) =>
      match token1.ty with
      | .TT_EOI => .ok (left_side, next1, token1)
      | .TT_PLUS | .TT_MINUS | .TT_STAR | .TT_SLASH | .TT_PERCENT | .TT_STAR_STAR =>
        let op : Operator := token1.ty.id
        if get_left_bp_mem mem op < min_bp then .ok (left_side, next1, token1)
        else
          match parse_expression_mem A mem fuel next1 token1 (get_right_bp_mem mem op) with
          | .error e => .error e
          | .ok (right, next2, token2) =>
            parse_loop_mem A mem fuel next2 token2 min_bp (.expr op left_side right)
      | _ => .error (.token_not_impl token1.ty.id)

end

/-! ## Evaluator -/

/-- Function `eval` (lines 259-283).  The tag `ET_NUMBER` on a node that holds
two children is never written by the source; `eval` would read the member
`number` of the union there, which the model reports as `wrong_member`. -/
def eval {F : Type} (A : DoubleOps F) : Expression F → Except Error F
  | .number n => .ok n
  | .expr op left right =>
    if op = ET_NUMBER then .error .wrong_member
    else if op = OP_ADD then do
      let l ← eval A left
      let r ← eval A right
      pure (A.add l r)
    else if op = OP_SUB then do
      let l ← eval A left
      let r ← eval A right
      pure (A.sub l r)
    else if op = OP_MUL then do
      let l ← eval A left
      let r ← eval A right
      pure (A.mul l r)
    else if op = OP_DIV then do
      let l ← eval A left
      let r ← eval A right
      pure (A.div l r)
    else if op = OP_REM then do
      let l ← eval A left
      let a ← to_long_long A l
      let r ← eval A right
      let b ← to_long_long A r
      let m ← rem_long_long a b
      pure (A.ofInt m)
    else if op = OP_EXP then do
      let l ← eval A left
      let r ← eval A right
      pure (A.pow l r)
    else .error .not_impl

/-! ## Driver -/

/-- Function `main` (lines 285-297): the value that is printed, or the reason why
none is.  The local `token` is not initialised by the source, so its first
content is an argument here. -/
def main {F : Type} (A : DoubleOps F) (token : Token F) (args : List String) : Except Error F :=
  match args with
  | _ :: arg :: _ =>
    match parse_expression A (arg.length + 1) arg.toList token 0 with
    | .error e => .error e
    | .ok (expr, _, _) => eval A expr
  | _ => .error .usage

/-! ## Arithmetic without rounding -/

/-- Arithmetic without rounding, on the rationals: what IEEE 754 arithmetic
computes whenever the operands and the exact result are representable (as for
integers of small magnitude).  `none` stands for every other double.  It is
used to run the definitions on concrete inputs. -/
def exactOps : DoubleOps (Option ℚ) where
  ofInt n := some (n : ℚ)
  add x y := do
    let a ← x
    let b ← y
    pure (a + b)
  sub x y := do
    let a ← x
    let b ← y
    pure (a - b)
  mul x y := do
    let a ← x
    let b ← y
    pure (a * b)
  div x y := do
    let a ← x
    let b ← y
    if b = 0 then none else pure (a / b)
  pow x y := do
    let a ← x
    let b ← y
    if b.den = 1 ∧ 0 ≤ b.num then pure (a ^ b.num.toNat) else none
  val x := x

/-- A first content for the local `token` of `main`. -/
def token0 : Token (Option ℚ) := { ty := .TT_EOI, maybe_number := none }

/-! ## Arithmetic with the rounding of binary64, on integers -/

/-- The number of halvings that bring `a` below `2 ^ 53`, counted up to `fuel`. -/
def excess_bits : Nat → Nat → Nat
  | 0, _ => 0
  | fuel + 1, a => if a < 2 ^ 53 then 0 else excess_bits fuel (a / 2) + 1

/-- The integer nearest to `n` among those a binary64 holds exactly (a
significand of 53 bits), ties to the even significand: the rounding of
IEEE 754 in its default mode.  `none` when the result is beyond the largest
finite binary64, which is below `2 ^ 1024`. -/
def round_binary64 (n : Int) : Option Int :=
  let a := n.natAbs
  let e := excess_bits 972 a
  let q := a / 2 ^ e
  let r := a % 2 ^ e
  let q1 := if 2 * r < 2 ^ e then q else if 2 ^ e < 2 * r then q + 1
    else if q % 2 = 0 then q else q + 1
  if e + (if q1 = 2 ^ 53 then 1 else 0) ≤ 971 then
    some (Int.sign n * ((q1 * 2 ^ e : Nat) : Int))
  else none

/-- The doubles whose value is an integer, with the operations of IEEE 754: the
exact result, rounded by `round_binary64`.  `none` stands for every other
double.  It is used to run the lexer on digit strings too long to be exact. -/
def binary64Ops : DoubleOps (Option Int) where
  ofInt n := round_binary64 n
  add x y := do
    let a ← x
    let b ← y
    round_binary64 (a + b)
  sub x y := do
    let a ← x
    let b ← y
    round_binary64 (a - b)
  mul x y := do
    let a ← x
    let b ← y
    round_binary64 (a * b)
  div x y := do
    let a ← x
    let b ← y
    if b ≠ 0 ∧ a % b = 0 then round_binary64 (a / b) else none
  pow x y := do
    let a ← x
    let b ← y
    if 0 ≤ b then round_binary64 (a ^ b.toNat) else none
  val x := x.map (fun n => (n : ℚ))

/-! ## Notions of the specification -/

/-- The integer that a string of decimal digits denotes in base 10. -/
def decimal_value (d : List Char) : Int :=
  d.foldl (fun v c => v * 10 + digit_value c) 0

/-- The double that `value = value*10 + digit`, started at the first digit and
carried out from left to right in the arithmetic of doubles, ends with. -/
def decimal_fold {F : Type} (A : DoubleOps F) : List Char → F
  | [] => A.ofInt 0
  | c :: rest =>
    rest.foldl (fun v c => A.add (A.mul v (A.ofInt 10)) (A.ofInt (digit_value c)))
      (A.ofInt (digit_value c))

/-- The sums and the products by ten of integers between 0 and `bound` are
computed without rounding, as binary64 does for `bound = 2 ^ 53`. -/
def ExactUpTo {F : Type} (A : DoubleOps F) (bound : Int) : Prop :=
  (∀ a b : Int, 0 ≤ a → 0 ≤ b → a + b ≤ bound →
    A.add (A.ofInt a) (A.ofInt b) = A.ofInt (a + b)) ∧
  (∀ a : Int, 0 ≤ a → a * 10 ≤ bound → A.mul (A.ofInt a) (A.ofInt 10) = A.ofInt (a * 10))

/-- What a token says: its kind and, for a number, its payload. -/
def lexeme {F : Type} (token : Token F) : TokenType × Option F :=
  (token.ty, if token.ty = .TT_NUMBER then some token.maybe_number else none)

/-- Repeated `next_token`: the tokens before the end of input, and the error
at which the lexer stopped, if it did. -/
def lexemes {F : Type} (A : DoubleOps F) :
    Nat → List Char → Token F → List (TokenType × Option F) × Option Error
  | 0, _, _ => ([], some .out_of_fuel)
  | fuel + 1, next, token =>
    match next_token A next token with
    | .error e => ([], some e)
    | .ok (next1, token1) =>
      if token1.ty = .TT_EOI then ([], none)
      else (lexeme token1 :: (lexemes A fuel next1 token1).1, (lexemes A fuel next1 token1).2)

/-- The token sequence of an input: `lexemes`, with one call more than the
input has characters. -/
def token_sequence {F : Type} (A : DoubleOps F) (next : List Char) (token : Token F) :
    List (TokenType × Option F) × Option Error :=
  lexemes A (next.length + 1) next token

/-- Two cursors from which repeated `next_token`, started with the same token,
produces the same token sequence. -/
def same_tokens {F : Type} (A : DoubleOps F) (next1 next2 : List Char) (token : Token F) : Prop :=
  ∃ fuel1 fuel2, next1.length < fuel1 ∧ next2.length < fuel2 ∧
    lexemes A fuel1 next1 token = lexemes A fuel2 next2 token

/-- Two calls of the parser end alike: with the same error, or with the same
tree and the same token at cursors that have the same tokens ahead. -/
def same_result {F : Type} (A : DoubleOps F) (r1 r2 : Except Error (Parsed F)) : Prop :=
  match r1, r2 with
  | .error e1, .error e2 => e1 = e2
  | .ok (tree1, next1, token1), .ok (tree2, next2, token2) =>
    tree1 = tree2 ∧ token1 = token2 ∧ same_tokens A next1 next2 token1
  | _, _ => False

/-- The state after `n` further calls of `next_token`. -/
def next_token_times {F : Type} (A : DoubleOps F) :
    Nat → List Char × Token F → Except Error (List Char × Token F)
  | 0, state => .ok state
  | n + 1, state =>
    match next_token A state.1 state.2 with
    | .error e => .error e
    | .ok state1 => next_token_times A n state1

/-- The field `op_or_ty` of every node of a tree. -/
def node_tags {F : Type} : Expression F → List Nat
  | .number _ => [ET_NUMBER]
  | .expr op left right => op :: (node_tags left ++ node_tags right)

/-- The kind of token an operator was read from. -/
def operator_token (op : Nat) : TokenType :=
  if op = OP_ADD then .TT_PLUS
  else if op = OP_SUB then .TT_MINUS
  else if op = OP_MUL then .TT_STAR
  else if op = OP_DIV then .TT_SLASH
  else if op = OP_REM then .TT_PERCENT
  else .TT_STAR_STAR

/-- The tree read in order: left subtree, operator, right subtree. -/
def in_order {F : Type} : Expression F → List (TokenType × Option F)
  | .number n => [(.TT_NUMBER, some n)]
  | .expr op left right => in_order left ++ (operator_token op, none) :: in_order right

/-- A tree whose nodes with two children are all tagged with one of the six
operators. -/
def operator_tree {F : Type} : Expression F → Prop
  | .number _ => True
  | .expr op left right =>
    (op = OP_ADD ∨ op = OP_SUB ∨ op = OP_MUL ∨ op = OP_DIV ∨ op = OP_REM ∨ op = OP_EXP) ∧
    operator_tree left ∧ operator_tree right

/-- A result of `eval` that is a number, or one of the two stops of a remainder
that C leaves undefined. -/
def number_or_remainder_stop {F : Type} (r : Except Error F) : Prop :=
  (∃ v, r = .ok v) ∨ r = .error .bad_conversion ∨ r = .error .bad_remainder

/-! ## Releasing a tree -/

/-- A node of a tree, named by the way to it from the root: `false` for the
child `left`, `true` for the child `right`.  Every node is an allocation of
its own, so the ways name the allocations. -/
abbrev Node := List Bool

/-- Every node of a tree. -/
def nodes {F : Type} : Expression F → List Node
  | .number _ => [[]]
  | .expr _ left right =>
    (nodes left).map (false :: ·) ++ (nodes right).map (true :: ·) ++ [[]]

/-- Function `free_ast` (lines 239-257): the nodes passed to `free`, in the
order of the calls. -/
def free_ast {F : Type} : Expression F → List Node
  | .number _ => [[]]
  | .expr op left right =>
    if op = OP_ADD ∨ op = OP_SUB ∨ op = OP_MUL ∨ op = OP_DIV ∨ op = OP_REM then
      (free_ast left).map (false :: ·) ++ (free_ast right).map (true :: ·) ++ [[]]
    else [[]]

/-! ## Facts about the arithmetic of `long long` -/

/-- On a rational that is not negative, `trunc` is the floor. -/
theorem trunc_of_nonneg (q : ℚ) (h : 0 ≤ q) : trunc q = ⌊q⌋ := by
  have hn : 0 ≤ q.num := Rat.num_nonneg.mpr h
  have hd : (0 : Int) ≤ (q.den : Int) := Int.ofNat_nonneg _
  rw [trunc, Rat.floor_def, Int.tdiv_eq_ediv hn hd]

/-- Function `trunc` is odd. -/
theorem trunc_neg (q : ℚ) : trunc (-q) = -trunc q := by
  simp [trunc, Int.neg_tdiv]

/-- On a rational that is not positive, `trunc` is the ceiling: together with
`trunc_of_nonneg`, `trunc` rounds toward zero. -/
theorem trunc_of_nonpos (q : ℚ) (h : q ≤ 0) : trunc q = ⌈q⌉ := by
  have h1 : trunc q = -trunc (-q) := by rw [trunc_neg, neg_neg]
  rw [h1, trunc_of_nonneg (-q) (by linarith), Int.floor_neg, neg_neg]

/-- The remainder of the division that rounds toward zero is not negative for a
dividend that is not negative, not positive for a dividend that is not
positive, and smaller in magnitude than the divisor. -/
theorem tmod_sign_bound (a b : Int) (hb : b ≠ 0) :
    (0 ≤ a → 0 ≤ Int.tmod a b) ∧ (a ≤ 0 → Int.tmod a b ≤ 0) ∧ |Int.tmod a b| < |b| := by
  have key : ∀ c d : Int, 0 ≤ c → d ≠ 0 → 0 ≤ Int.tmod c d ∧ Int.tmod c d < |d| := by
    intro c d hc hd
    refine ⟨Int.tmod_nonneg d hc, ?_⟩
    rcases lt_or_gt_of_ne hd with hneg | hpos
    · have := @Int.tmod_lt_of_pos c (-d) (by omega)
      rw [Int.tmod_neg] at this
      rw [abs_of_neg hneg]; exact this
    · rw [abs_of_pos hpos]; exact Int.tmod_lt_of_pos c hpos
  have hneg : Int.tmod (-a) b = -Int.tmod a b := by
    rw [Int.tmod_def, Int.tmod_def, Int.neg_tdiv]; ring
  rcases le_total 0 a with ha | ha
  · obtain ⟨h1, h2⟩ := key a b ha hb
    refine ⟨fun _ => h1, fun h => ?_, ?_⟩
    · have : a = 0 := le_antisymm h ha
      subst this; simp
    · rw [abs_of_nonneg h1]; exact h2
  · obtain ⟨h1, h2⟩ := key (-a) b (by omega) hb
    rw [hneg] at h1 h2
    refine ⟨fun h => ?_, fun _ => by omega, ?_⟩
    · have : a = 0 := le_antisymm ha h
      subst this; simp
    · rw [abs_of_nonpos (by omega)]; exact h2

/-- A rational between two integers of opposite sign truncates to an integer
between them. -/
theorem trunc_between (q : ℚ) (lo hi : Int) (hlo : lo ≤ 0) (hhi : 0 ≤ hi)
    (h1 : (lo : ℚ) ≤ q) (h2 : q ≤ (hi : ℚ)) : lo ≤ trunc q ∧ trunc q ≤ hi := by
  rcases le_total 0 q with hq | hq
  · rw [trunc_of_nonneg q hq]
    have h0 : (0 : Int) ≤ ⌊q⌋ := Int.floor_nonneg.mpr hq
    have h3 : ((⌊q⌋ : Int) : ℚ) ≤ (hi : ℚ) := le_trans (Int.floor_le q) h2
    exact ⟨le_trans hlo h0, Int.cast_le.mp h3⟩
  · rw [trunc_of_nonpos q hq]
    have h0 : ⌈q⌉ ≤ (0 : Int) := Int.ceil_le.mpr (by simpa using hq)
    have h3 : (lo : ℚ) ≤ ((⌈q⌉ : Int) : ℚ) := le_trans h1 (Int.le_ceil q)
    exact ⟨Int.cast_le.mp h3, le_trans h0 hhi⟩

/-! ## The lexer advances, and the fuel of the parser is enough -/

/-- The inner loop of the lexer never moves the cursor backward. -/
theorem scan_digits_length {F : Type} (A : DoubleOps F) :
    ∀ (next : List Char) (num : F), (scan_digits A num next).2.length ≤ next.length := by
  intro next
  induction next with
  | nil => intro num; simp [scan_digits]
  | cons c rest ih =>
    intro num
    rw [scan_digits]
    split
    · exact Nat.le_succ_of_le (ih _)
    · exact Nat.le_refl _

/-- A call of `next_token` never moves the cursor backward, and moves it forward
whenever the token is not the end of input. -/
theorem next_token_length {F : Type} (A : DoubleOps F) :
    ∀ (next : List Char) (token : Token F) (next1 : List Char) (token1 : Token F),
      next_token A next token = .ok (next1, token1) →
      next1.length ≤ next.length ∧ (token1.ty ≠ .TT_EOI → next1.length < next.length) := by
  intro next
  induction next with
  | nil =>
    intro token next1 token1 h
    simp [next_token] at h
    obtain ⟨h1, h2⟩ := h
    subst h1; subst h2
    simp
  | cons c rest ih =>
    intro token next1 token1 h
    simp only [next_token] at h
    split_ifs at h with h0 hs hd hp hm hst hpc hsl
    · simp at h
      obtain ⟨h1, h2⟩ := h
      subst h1; subst h2
      simp
    · obtain ⟨h1, h2⟩ := ih token next1 token1 h
      exact ⟨Nat.le_succ_of_le h1, fun hne => Nat.lt_succ_of_le h1⟩
    · simp at h
      obtain ⟨h1, h2⟩ := h
      subst h1
      have := scan_digits_length A rest (A.ofInt (digit_value c))
      simp only [List.length_cons]
      exact ⟨Nat.le_succ_of_le this, fun _ => Nat.lt_succ_of_le this⟩
    · simp at h
      obtain ⟨h1, h2⟩ := h
      subst h1
      simp
    · simp at h
      obtain ⟨h1, h2⟩ := h
      subst h1
      simp
    · split at h
      · simp at h
        obtain ⟨h1, h2⟩ := h
        subst h1
        simp
      · split_ifs at h
        · simp at h
          obtain ⟨h1, h2⟩ := h
          subst h1
          simp
          omega
        · simp at h
          obtain ⟨h1, h2⟩ := h
          subst h1
          simp
    · simp at h
      obtain ⟨h1, h2⟩ := h
      subst h1
      simp
    · simp at h
      obtain ⟨h1, h2⟩ := h
      subst h1
      simp


/-- A call of `parse_expression` that returns has moved the cursor forward; the
loop never moves it backward. -/
theorem parse_progress {F : Type} (A : DoubleOps F) : ∀ fuel : Nat,
    (∀ next token min_bp e next2 token2,
      parse_expression A fuel next token min_bp = .ok (e, next2, token2) →
      next2.length < next.length) ∧
    (∀ next token min_bp left_side e next2 token2,
      parse_loop A fuel next token min_bp left_side = .ok (e, next2, token2) →
      next2.length ≤ next.length) := by
  intro fuel
  induction fuel with
  | zero =>
    constructor
    · intro next token min_bp e next2 token2 h
      simp [parse_expression] at h
    · intro next token min_bp left_side e next2 token2 h
      simp [parse_loop] at h
  | succ fuel ih =>
    constructor
    · intro next token min_bp e next2 token2 h
      rw [parse_expression] at h
      cases hnt : next_token A next token with
      | error err => rw [hnt] at h; simp at h
      | ok p =>
        obtain ⟨next1, token1⟩ := p
        rw [hnt] at h
        have hlen := next_token_length A next token next1 token1 hnt
        cases hty : token1.ty <;> simp [hty] at h
        have h1 := ih.2 _ _ _ _ _ _ _ h
        have h2 := hlen.2 (by simp [hty])
        omega
    · intro next token min_bp left_side e next2 token2 h
      rw [parse_loop] at h
      cases hnt : next_token A next token with
      | error err => rw [hnt] at h; simp at h
      | ok p =>
        obtain ⟨next1, token1⟩ := p
        rw [hnt] at h
        have hlen := next_token_length A next token next1 token1 hnt
        cases hty : token1.ty <;> simp only [hty] at h
        case TT_EOI =>
          simp at h
          obtain ⟨_, h2, _⟩ := h
          subst h2
          exact hlen.1
        case TT_NUMBER => simp at h
        all_goals
          split at h
          · simp at h
          · split_ifs at h
            · simp at h
              obtain ⟨_, h2, _⟩ := h
              subst h2
              exact hlen.1
            · split at h
              · simp at h
              · split at h
                · simp at h
                · rename_i right next3 token3 hpe
                  have h1 := ih.1 _ _ _ _ _ _ hpe
                  have h2 := ih.2 _ _ _ _ _ _ _ h
                  omega


/-- The only way `next_token` stops is `Invalid character`, at a character of the
input. -/
theorem next_token_error {F : Type} (A : DoubleOps F) :
    ∀ (next : List Char) (token : Token F) (e : Error),
      next_token A next token = .error e → ∃ c, c ∈ next ∧ e = .invalid_character c := by
  intro next
  induction next with
  | nil => intro token e h; simp [next_token] at h
  | cons c rest ih =>
    intro token e h
    simp only [next_token] at h
    split_ifs at h with h0 hs hd hp hm hst hpc hsl
    · obtain ⟨c1, hc1, he⟩ := ih token e h
      exact ⟨c1, List.mem_cons_of_mem _ hc1, he⟩
    · split at h
      · simp at h
      · split_ifs at h
    · simp at h
      exact ⟨c, List.mem_cons_self _ _, h.symm⟩

/-- The only way a read of `BP_VALUES` stops is an index outside the array. -/
theorem read_bp_error (i : Nat) (e : Error) (h : read_bp i = .error e) :
    e = .out_of_bounds i := by
  unfold read_bp at h
  split at h
  · simp at h
  · simp at h
    exact h.symm

/-- One unfolding of `parse_expression`. -/
theorem parse_expression_succ {F : Type} (A : DoubleOps F) (fuel : Nat) (next : List Char)
    (token : Token F) (min_bp : Int) :
    parse_expression A (fuel + 1) next token min_bp =
      match next_token A next token with
      | .error e => .error e
      | .ok (next1, token1) =>
        match token1.ty with
        | .TT_NUMBER => parse_loop A fuel next1 token1 min_bp (.number token1.maybe_number)
        | _ => .error (.invalid_token token1.ty.id) := by
  rw [parse_expression]

/-- With more fuel than the input has characters, neither `parse_expression` nor
its loop runs out of fuel. -/
theorem parse_enough_fuel {F : Type} (A : DoubleOps F) : ∀ fuel : Nat,
    (∀ next token min_bp, next.length < fuel →
      parse_expression A fuel next token min_bp ≠ .error .out_of_fuel) ∧
    (∀ next token min_bp left_side, next.length < fuel →
      parse_loop A fuel next token min_bp left_side ≠ .error .out_of_fuel) := by
  intro fuel
  induction fuel with
  | zero =>
    constructor
    · intro next token min_bp h; omega
    · intro next token min_bp left_side h; omega
  | succ fuel ih =>
    constructor
    · intro next token min_bp hf
      rw [parse_expression]
      cases hnt : next_token A next token with
      | error err =>
        obtain ⟨c, _, hc⟩ := next_token_error A next token err hnt
        simp [hc]
      | ok p =>
        obtain ⟨next1, token1⟩ := p
        have hlen := next_token_length A next token next1 token1 hnt
        cases hty : token1.ty <;> simp [hty]
        have h2 := hlen.2 (by simp [hty])
        exact ih.2 _ _ _ _ (by omega)
    · intro next token min_bp left_side hf
      rw [parse_loop]
      cases hnt : next_token A next token with
      | error err =>
        obtain ⟨c, _, hc⟩ := next_token_error A next token err hnt
        simp [hc]
      | ok p =>
        obtain ⟨next1, token1⟩ := p
        have hlen := next_token_length A next token next1 token1 hnt
        cases hty : token1.ty <;> simp only [hty]
        case TT_EOI => simp
        case TT_NUMBER => simp
        all_goals
          have h2 := hlen.2 (by simp [hty])
          split
          · rename_i err hbp
            have := read_bp_error _ _ hbp
            simp [this]
          · split_ifs
            · simp
            · split
              · rename_i err hbp
                have := read_bp_error _ _ hbp
                simp [this]
              · split
                · rename_i err hpe
                  intro hcon
                  simp at hcon
                  subst hcon
                  exact ih.1 _ _ _ (by omega) hpe
                · rename_i right next3 token3 hpe
                  have h1 := (parse_progress A fuel).1 _ _ _ _ _ _ hpe
                  exact ih.2 _ _ _ _ (by omega)


/-- One unfolding of the loop of `parse_expression`. -/
theorem parse_loop_succ {F : Type} (A : DoubleOps F) (fuel : Nat) (next : List Char)
    (token : Token F) (min_bp : Int) (left_side : Expression F) :
    parse_loop A (fuel + 1) next token min_bp left_side =
      match next_token A next token with
      | .error e => .error e
      | .ok (next1, token1) =>
        match token1.ty with
        | .TT_EOI => .ok (left_side, next1, token1)
        | .TT_PLUS | .TT_MINUS | .TT_STAR | .TT_SLASH | .TT_PERCENT | .TT_STAR_STAR =>
          match get_left_bp token1.ty.id with
          | .error e => .error e
          | .ok lbp =>
            if lbp < min_bp then .ok (left_side, next1, token1)
            else
              match get_right_bp token1.ty.id with
              | .error e => .error e
              | .ok rbp =>
                match parse_expression A fuel next1 token1 rbp with
                | .error e => .error e
                | .ok (right, next2, token2) =>
                  parse_loop A fuel next2 token2 min_bp (.expr token1.ty.id left_side right)
        | _ => .error (.token_not_impl token1.ty.id) := by
  rw [parse_loop]

/-- A run that did not run out of fuel is not changed by more fuel. -/
theorem parse_fuel_mono {F : Type} (A : DoubleOps F) : ∀ fuel : Nat,
    (∀ next token min_bp,
      parse_expression A fuel next token min_bp ≠ .error .out_of_fuel →
      parse_expression A (fuel + 1) next token min_bp =
        parse_expression A fuel next token min_bp) ∧
    (∀ next token min_bp left_side,
      parse_loop A fuel next token min_bp left_side ≠ .error .out_of_fuel →
      parse_loop A (fuel + 1) next token min_bp left_side =
        parse_loop A fuel next token min_bp left_side) := by
  intro fuel
  induction fuel with
  | zero =>
    constructor
    · intro next token min_bp h
      exact absurd (by rw [parse_expression]) h
    · intro next token min_bp left_side h
      exact absurd (by rw [parse_loop]) h
  | succ fuel ih =>
    constructor
    · intro next token min_bp h
      rw [parse_expression_succ A (fuel + 1), parse_expression_succ A fuel]
      rw [parse_expression_succ A fuel] at h
      cases hnt : next_token A next token with
      | error err => rfl
      | ok p =>
        obtain ⟨next1, token1⟩ := p
        rw [hnt] at h
        cases hty : token1.ty <;> simp only [hty] at h ⊢
        exact ih.2 _ _ _ _ h
    · intro next token min_bp left_side h
      rw [parse_loop_succ A (fuel + 1), parse_loop_succ A fuel]
      rw [parse_loop_succ A fuel] at h
      cases hnt : next_token A next token with
      | error err => rfl
      | ok p =>
        obtain ⟨next1, token1⟩ := p
        rw [hnt] at h
        cases hty : token1.ty <;> simp only [hty] at h ⊢
        all_goals
          split
          · rfl
          · split_ifs
            · rfl
            · rename_i lbp hl hlt
              simp only [hl, hlt, if_false] at h
              split
              · rfl
              · rename_i rbp hr
                simp only [hr] at h
                cases hpe : parse_expression A fuel next1 token1 rbp with
                | error err =>
                  rw [hpe] at h
                  have hne : parse_expression A fuel next1 token1 rbp ≠ .error .out_of_fuel := by
                    rw [hpe]; intro hc; rw [hc] at h; exact h rfl
                  rw [ih.1 _ _ _ hne, hpe]
                | ok q =>
                  obtain ⟨right, next2, token2⟩ := q
                  rw [hpe] at h
                  have hne : parse_expression A fuel next1 token1 rbp ≠ .error .out_of_fuel := by
                    rw [hpe]; intro hc; cases hc
                  rw [ih.1 _ _ _ hne, hpe]
                  exact ih.2 _ _ _ _ h

/-- More fuel than the input has characters is as good as any larger amount:
the fuel that `main` passes decides nothing. -/
theorem parse_expression_fuel {F : Type} (A : DoubleOps F) (next : List Char)
    (token : Token F) (min_bp : Int) (fuel : Nat) (h : next.length < fuel) :
    parse_expression A fuel next token min_bp =
      parse_expression A (next.length + 1) next token min_bp := by
  induction fuel with
  | zero => omega
  | succ k ih =>
    rcases Nat.lt_or_ge next.length k with hk | hk
    · rw [(parse_fuel_mono A k).1 _ _ _ ((parse_enough_fuel A k).1 _ _ _ hk), ih hk]
    · have : k = next.length := by omega
      subst this
      rfl

/-! ## Precedence and associativity -/

/-- C1.  On the input `2 + 3 * 4` the run does not yield 14: after `+` the
recursive call reads `*`, and `get_left_bp` indexes `BP_VALUES` at
`4 << 2 = 16`, one past the end of the array of 16 entries. -/
theorem main_add_mul_reads_past_table {F : Type} (A : DoubleOps F) (token : Token F) :
    main A token ["eval", "2 + 3 * 4"] = .error (.out_of_bounds 16) := rfl

/-- C2.  On the input `10 - 2 - 3` the run does not yield 5: the recursive call
for the right operand of the first `-` reads the second `-`, finds its left
binding power below `min_bp` and returns; the loop of the caller then reads a
new token, the number 3, and stops with `1 not impl`. -/
theorem main_sub_sub_not_impl {F : Type} (A : DoubleOps F) (token : Token F) :
    main A token ["eval", "10 - 2 - 3"] = .error (.token_not_impl 1) := rfl

/-- C3.  On the input `2 ** 3 ** 2` the run does not yield 64: for the first
`**` `get_left_bp` indexes `BP_VALUES` at `7 << 2 = 28`, outside the array. -/
theorem main_exp_exp_reads_past_table {F : Type} (A : DoubleOps F) (token : Token F) :
    main A token ["eval", "2 ** 3 ** 2"] = .error (.out_of_bounds 28) := rfl

/-- C4.  The operator at which a recursive call stops is lost.  On `2 * 3 + 4`
the run stops at the read of `BP_VALUES[16]`.  On `1 + 2 - 3`, where every read
is inside the array, the call for the right operand of `+` (entered with
`min_bp = 23` at the cursor ` 2 - 3`) returns the literal 2 with the cursor
after `-`; the loop of the enclosing call, resumed in that state with the tree
of `1 + 2`, reads the number 3 as its next token and stops with `1 not impl`,
and so does the whole run: the enclosing call never handles that `-`. -/
theorem stopped_operator_is_dropped {F : Type} (A : DoubleOps F) (token : Token F) (fuel : Nat) :
    main A token ["eval", "2 * 3 + 4"] = .error (.out_of_bounds 16) ∧
    parse_expression A (fuel + 2) " 2 - 3".toList token 23 =
      .ok (.number (A.ofInt 2), " 3".toList, { ty := .TT_MINUS, maybe_number := A.ofInt 2 }) ∧
    parse_loop A (fuel + 1) " 3".toList { ty := .TT_MINUS, maybe_number := A.ofInt 2 } 0
        (.expr OP_ADD (.number (A.ofInt 1)) (.number (A.ofInt 2))) =
      .error (.token_not_impl 1) ∧
    main A token ["eval", "1 + 2 - 3"] = .error (.token_not_impl 1) :=
  ⟨rfl, rfl, rfl, rfl⟩

/-- C5.  What `get_left_bp` and `get_right_bp` return: the index is `op << 2`,
so add and subtract read the entries 8, 9 and 12, 13, which hold (22, 23), and
the other four operators read outside the array of 16 entries. -/
theorem binding_powers_as_coded :
    (get_left_bp OP_ADD, get_right_bp OP_ADD) = (.ok 22, .ok 23) ∧
    (get_left_bp OP_SUB, get_right_bp OP_SUB) = (.ok 22, .ok 23) ∧
    (get_left_bp OP_MUL, get_right_bp OP_MUL) = (.error (.out_of_bounds 16), .error (.out_of_bounds 17)) ∧
    (get_left_bp OP_DIV, get_right_bp OP_DIV) = (.error (.out_of_bounds 20), .error (.out_of_bounds 21)) ∧
    (get_left_bp OP_REM, get_right_bp OP_REM) = (.error (.out_of_bounds 24), .error (.out_of_bounds 25)) ∧
    (get_left_bp OP_EXP, get_right_bp OP_EXP) = (.error (.out_of_bounds 28), .error (.out_of_bounds 29)) ∧
    BP_VALUES.length = 16 :=
  ⟨rfl, rfl, rfl, rfl, rfl, rfl, rfl⟩

/-! ## Rejected and accepted inputs -/

/-- C6.  The accepted inputs are not the sequences number, (operator, number)*:
the top-level call accepts `1 + 2 -`, which ends in an operator, and
`1 + 2 - + 3`, which has two adjacent operators, and it rejects `1 - 2 - 3`. -/
theorem accepted_inputs_as_coded {F : Type} (A : DoubleOps F) (token : Token F) (fuel : Nat) :
    parse_expression A (fuel + 4) "1 + 2 -".toList token 0 =
      .ok (.expr OP_ADD (.number (A.ofInt 1)) (.number (A.ofInt 2)), [],
           { ty := .TT_EOI, maybe_number := A.ofInt 2 }) ∧
    parse_expression A (fuel + 6) "1 + 2 - + 3".toList token 0 =
      .ok (.expr OP_ADD (.expr OP_ADD (.number (A.ofInt 1)) (.number (A.ofInt 2)))
             (.number (A.ofInt 3)), [],
           { ty := .TT_EOI, maybe_number := A.ofInt 3 }) ∧
    parse_expression A (fuel + 5) "1 - 2 - 3".toList token 0 = .error (.token_not_impl 1) :=
  ⟨rfl, rfl, rfl⟩

/-- C7.  A dangling operator is not always rejected: the run on `1 + 2 -`
prints the sum of 1 and 2.  The run on `2 + ` does stop, with
`invalid token with id = 0`. -/
theorem main_dangling_operator {F : Type} (A : DoubleOps F) (token : Token F) :
    main A token ["eval", "1 + 2 -"] = .ok (A.add (A.ofInt 1) (A.ofInt 2)) ∧
    main A token ["eval", "2 + "] = .error (.invalid_token 0) :=
  ⟨rfl, rfl⟩

/-- C8.  When the first token at the cursor is not a number, `parse_expression`
stops with `invalid token with id = ` the kind of that token, whatever `min_bp`
is, and returns no tree. -/
theorem parse_expression_rejects_non_number {F : Type} (A : DoubleOps F) (fuel : Nat)
    (next : List Char) (token : Token F) (min_bp : Int)
    (next1 : List Char) (token1 : Token F)
    (hlex : next_token A next token = .ok (next1, token1))
    (hty : token1.ty ≠ .TT_NUMBER) :
    parse_expression A (fuel + 1) next token min_bp = .error (.invalid_token token1.ty.id) := by
  rw [parse_expression, hlex]
  cases h : token1.ty <;> simp_all

/-- Witness of C8: the input `-7 % 2`, whose first token is a minus. -/
theorem parse_expression_rejects_non_number_witness :
    next_token exactOps "-7 % 2".toList token0 =
      .ok ("7 % 2".toList, { ty := .TT_MINUS, maybe_number := none }) ∧
    (TokenType.TT_MINUS ≠ TokenType.TT_NUMBER) ∧
    parse_expression exactOps 1 "-7 % 2".toList token0 0 = .error (.invalid_token 3) :=
  ⟨rfl, by decide,
   parse_expression_rejects_non_number exactOps 0 "-7 % 2".toList token0 0
     "7 % 2".toList { ty := .TT_MINUS, maybe_number := none } rfl (by decide)⟩

/-! ## Remainder -/

/-- C9, as stated, fails: the run on `-7 % 2` yields no value at all. -/
theorem main_rem_examples_fail :
    ¬ (main exactOps token0 ["eval", "7 % 2"] = .ok (exactOps.ofInt 1) ∧
       main exactOps token0 ["eval", "-7 % 2"] = .ok (exactOps.ofInt (-1))) := by
  intro h
  have h2 : main exactOps token0 ["eval", "-7 % 2"] = .error (.invalid_token 3) := rfl
  rw [h2] at h
  exact Except.noConfusion h.2

/-- C9, amended.  The run on `-7 % 2` stops with `invalid token with id = 3`:
the leading `-` is a minus token, and a primary must be a number. -/
theorem main_leading_minus_rejected {F : Type} (A : DoubleOps F) (token : Token F) :
    main A token ["eval", "-7 % 2"] = .error (.invalid_token 3) := rfl

/-- C10, as stated, fails: the operands `-2^63` and `-1` lie in the range of
`long long` and the right one truncates to `-1`, yet `eval` returns no
remainder, because the quotient `2^63` of `LLONG_MIN % -1` is not
representable. -/
theorem eval_rem_min_by_minus_one :
    ((LLONG_MIN : ℚ) ≤ -9223372036854775808 ∧ (-9223372036854775808 : ℚ) ≤ (LLONG_MAX : ℚ)) ∧
    ((LLONG_MIN : ℚ) ≤ -1 ∧ (-1 : ℚ) ≤ (LLONG_MAX : ℚ)) ∧
    trunc (-1) ≠ 0 ∧
    eval exactOps (.expr OP_REM (.number (some (-9223372036854775808))) (.number (some (-1)))) ≠
      .ok (exactOps.ofInt (Int.tmod (trunc (-9223372036854775808)) (trunc (-1)))) ∧
    eval exactOps (.expr OP_REM (.number (some (-9223372036854775808))) (.number (some (-1)))) =
      .error .bad_remainder := by
  have h : eval exactOps (.expr OP_REM (.number (some (-9223372036854775808)))
      (.number (some (-1)))) = .error .bad_remainder := rfl
  refine ⟨?_, ?_, by decide, ?_, h⟩
  · constructor <;> norm_num [LLONG_MIN, LLONG_MAX]
  · constructor <;> norm_num [LLONG_MIN, LLONG_MAX]
  · rw [h]; exact fun h' => Except.noConfusion h'

/-- C10, amended.  For a remainder node whose operands evaluate to doubles with
values `qx` and `qy` in the range of `long long`, with `trunc qy` not zero and
not (`trunc qx = LLONG_MIN` and `trunc qy = -1`), `eval` returns the double of
the integer `m = trunc qx - trunc qy * q`, where `q` is the quotient rounded
toward zero; `m` is zero or has the sign of `trunc qx`, and is smaller in
magnitude than `trunc qy`.  Here `trunc` rounds toward zero: it is the floor of
a value that is not negative and the ceiling of one that is not positive. -/
theorem eval_rem_truncates {F : Type} (A : DoubleOps F) (left right : Expression F)
    (x y : F) (qx qy : ℚ)
    (hl : eval A left = .ok x) (hr : eval A right = .ok y)
    (hx : A.val x = some qx) (hy : A.val y = some qy)
    (hxr : (LLONG_MIN : ℚ) ≤ qx ∧ qx ≤ (LLONG_MAX : ℚ))
    (hyr : (LLONG_MIN : ℚ) ≤ qy ∧ qy ≤ (LLONG_MAX : ℚ))
    (hnz : trunc qy ≠ 0)
    (hov : ¬ (trunc qx = LLONG_MIN ∧ trunc qy = -1)) :
    eval A (.expr OP_REM left right) = .ok (A.ofInt (Int.tmod (trunc qx) (trunc qy))) ∧
    Int.tmod (trunc qx) (trunc qy) = trunc qx - trunc qy * Int.tdiv (trunc qx) (trunc qy) ∧
    (0 ≤ trunc qx → 0 ≤ Int.tmod (trunc qx) (trunc qy)) ∧
    (trunc qx ≤ 0 → Int.tmod (trunc qx) (trunc qy) ≤ 0) ∧
    |Int.tmod (trunc qx) (trunc qy)| < |trunc qy| ∧
    (∀ q : ℚ, (0 ≤ q → trunc q = ⌊q⌋) ∧ (q ≤ 0 → trunc q = ⌈q⌉)) := by
  have bx := trunc_between qx LLONG_MIN LLONG_MAX (by decide) (by decide) hxr.1 hxr.2
  have b_y := trunc_between qy LLONG_MIN LLONG_MAX (by decide) (by decide) hyr.1 hyr.2
  obtain ⟨s1, s2, s3⟩ := tmod_sign_bound (trunc qx) (trunc qy) hnz
  refine ⟨?_, Int.tmod_def _ _, s1, s2, s3, fun q => ⟨trunc_of_nonneg q, trunc_of_nonpos q⟩⟩
  have cx : to_long_long A x = .ok (trunc qx) := by simp [to_long_long, hx, bx]
  have cy : to_long_long A y = .ok (trunc qy) := by simp [to_long_long, hy, b_y]
  have cr : rem_long_long (trunc qx) (trunc qy) = .ok (Int.tmod (trunc qx) (trunc qy)) := by
    simp [rem_long_long, hnz, hov]
  simp [eval, OP_REM, OP_ADD, OP_SUB, OP_MUL, OP_DIV, ET_NUMBER, hl, hr, cx, cy, cr,
    bind, Except.bind, Functor.map, Except.map]
  rfl

/-- Witness of C10: the operands `-7` and `2` give `-1`, and the operands `7`
and `2` give `1`. -/
theorem eval_rem_truncates_witness :
    eval exactOps (.expr OP_REM (.number (some (-7))) (.number (some 2))) =
      .ok (exactOps.ofInt (-1)) ∧
    eval exactOps (.expr OP_REM (.number (some 7)) (.number (some 2))) =
      .ok (exactOps.ofInt 1) :=
  ⟨(eval_rem_truncates exactOps (.number (some (-7))) (.number (some 2)) (some (-7)) (some 2)
      (-7) 2 rfl rfl rfl rfl
      (by constructor <;> norm_num [LLONG_MIN, LLONG_MAX])
      (by constructor <;> norm_num [LLONG_MIN, LLONG_MAX])
      (by decide) (by decide)).1,
   (eval_rem_truncates exactOps (.number (some 7)) (.number (some 2)) (some 7) (some 2)
      7 2 rfl rfl rfl rfl
      (by constructor <;> norm_num [LLONG_MIN, LLONG_MAX])
      (by constructor <;> norm_num [LLONG_MIN, LLONG_MAX])
      (by decide) (by decide)).1⟩

/-! ## The lexer, token by token -/

/-- A token that is not a number leaves the payload as it was. -/
theorem next_token_keeps_payload {F : Type} (A : DoubleOps F) :
    ∀ (next : List Char) (token : Token F) (next1 : List Char) (token1 : Token F),
      next_token A next token = .ok (next1, token1) → token1.ty ≠ .TT_NUMBER →
      token1.maybe_number = token.maybe_number := by
  intro next
  induction next with
  | nil =>
    intro token next1 token1 h _
    simp [next_token] at h
    rw [← h.2]
  | cons c rest ih =>
    intro token next1 token1 h hty
    simp only [next_token] at h
    split_ifs at h
    · simp at h; rw [← h.2]
    · exact ih token next1 token1 h hty
    · simp at h; rw [← h.2] at hty; simp at hty
    · simp at h; rw [← h.2]
    · simp at h; rw [← h.2]
    · split at h
      · simp at h; rw [← h.2]
      · split_ifs at h
        · simp at h; rw [← h.2]
        · simp at h; rw [← h.2]
    · simp at h; rw [← h.2]
    · simp at h; rw [← h.2]

/-- Once `next_token` has returned the end of input, the state it left is a
fixed point: the next call returns the same cursor and the same token. -/
theorem next_token_eoi_fixed {F : Type} (A : DoubleOps F) :
    ∀ (next : List Char) (token : Token F) (next1 : List Char) (token1 : Token F),
      next_token A next token = .ok (next1, token1) → token1.ty = .TT_EOI →
      next_token A next1 token1 = .ok (next1, token1) := by
  intro next
  induction next with
  | nil =>
    intro token next1 token1 h _
    simp [next_token] at h
    obtain ⟨h1, h2⟩ := h
    subst h1; subst h2
    rfl
  | cons c rest ih =>
    intro token next1 token1 h hty
    simp only [next_token] at h
    split_ifs at h with h0
    · simp at h
      obtain ⟨h1, h2⟩ := h
      subst h1; subst h2
      simp [next_token, h0]
    · exact ih token next1 token1 h hty
    · simp at h; rw [← h.2] at hty; simp at hty
    · simp at h; rw [← h.2] at hty; simp at hty
    · simp at h; rw [← h.2] at hty; simp at hty
    · split at h
      · simp at h; rw [← h.2] at hty; simp at hty
      · split_ifs at h
        · simp at h; rw [← h.2] at hty; simp at hty
        · simp at h; rw [← h.2] at hty; simp at hty
    · simp at h; rw [← h.2] at hty; simp at hty
    · simp at h; rw [← h.2] at hty; simp at hty

/-- C13.  The lexer stops with `Invalid character` exactly when the first
character at the cursor that is not whitespace exists and is neither the
terminator, nor a digit, nor one of `+ - * / %`; the error names that
character, and no token is returned.  The runs on `2 @ 3` and on `(2+3)*4`
stop with the lex errors that name `@` and `(`. -/
theorem next_token_invalid_character_iff {F : Type} (A : DoubleOps F) (next : List Char)
    (token : Token F) (e : Error) :
    (next_token A next token = .error e ↔
      ∃ c rest, next.dropWhile is_space = c :: rest ∧ c ≠ '\x00' ∧ is_digit c = false ∧
        c ≠ '+' ∧ c ≠ '-' ∧ c ≠ '*' ∧ c ≠ '/' ∧ c ≠ '%' ∧ e = .invalid_character c) ∧
    main A token ["eval", "2 @ 3"] = .error (.invalid_character '@') ∧
    main A token ["eval", "(2+3)*4"] = .error (.invalid_character '(') := by
  refine ⟨?_, rfl, rfl⟩
  induction next with
  | nil => simp [next_token]
  | cons c rest ih =>
    simp only [next_token]
    by_cases h0 : c = '\x00'
    · subst h0
      have hs : is_space '\x00' = false := by decide
      simp [List.dropWhile_cons, hs]
    · by_cases hs : is_space c = true
      · have hrw : (c :: rest).dropWhile is_space = rest.dropWhile is_space := by
          simp [List.dropWhile_cons, hs]
        rw [if_neg h0, if_pos hs, hrw]
        exact ih
      · have hrw : (c :: rest).dropWhile is_space = c :: rest := by
          simp [List.dropWhile_cons, hs]
        rw [if_neg h0, if_neg hs, hrw]
        split_ifs with hd hp hm hst hpc hsl
        · simp [hd]
        · simp [hp]
        · simp [hm]
        · split
          · simp [hst]
          · split_ifs <;> simp [hst]
        · simp [hpc]
        · simp [hsl]
        · constructor
          · intro h
            simp at h
            exact ⟨c, rest, rfl, h0, by simpa using hd, hp, hm, hst, hsl, hpc, h.symm⟩
          · rintro ⟨c1, rest1, heq, _, _, _, _, _, _, _, he⟩
            simp at heq
            rw [he, heq.1]

/-- C14.  At `+`, `-`, `/`, `%` the lexer returns plus, minus, slash, percent
with the cursor one character further.  At `*` it returns double-star with the
cursor two characters further when the next character is `*` as well, else
star with the cursor one character further; `***` is a double-star, then a
star. -/
theorem next_token_operators {F : Type} (A : DoubleOps F) (rest : List Char) (token : Token F) :
    next_token A ('+' :: rest) token = .ok (rest, { token with ty := .TT_PLUS }) ∧
    next_token A ('-' :: rest) token = .ok (rest, { token with ty := .TT_MINUS }) ∧
    next_token A ('/' :: rest) token = .ok (rest, { token with ty := .TT_SLASH }) ∧
    next_token A ('%' :: rest) token = .ok (rest, { token with ty := .TT_PERCENT }) ∧
    next_token A ('*' :: '*' :: rest) token = .ok (rest, { token with ty := .TT_STAR_STAR }) ∧
    next_token A ('*' :: rest) token =
      (if rest.head? = some '*' then .ok (rest.tail, { token with ty := .TT_STAR_STAR })
       else .ok (rest, { token with ty := .TT_STAR })) ∧
    next_token A "***".toList token = .ok ("*".toList, { token with ty := .TT_STAR_STAR }) ∧
    next_token A "*".toList { token with ty := .TT_STAR_STAR } =
      .ok ([], { token with ty := .TT_STAR }) := by
  refine ⟨rfl, rfl, rfl, rfl, rfl, ?_, rfl, rfl⟩
  cases rest with
  | nil => rfl
  | cons c2 rest2 =>
    by_cases h : c2 = '*'
    · subst h; rfl
    · have h1 : next_token A ('*' :: c2 :: rest2) token =
          .ok (c2 :: rest2, { token with ty := .TT_STAR }) := by
        simp [next_token, is_space, is_digit, h]
      rw [h1]
      simp [h]

/-- C15.  With the cursor at the end of the input, `next_token` returns the end
of input and leaves the cursor where it is, and so does every later call: after
any number `n + 1` of calls the state is the one after the first. -/
theorem next_token_idempotent_at_end {F : Type} (A : DoubleOps F) (token : Token F) (n : Nat) :
    next_token A [] token = .ok ([], { token with ty := .TT_EOI }) ∧
    next_token_times A (n + 1) ([], token) = .ok ([], { token with ty := .TT_EOI }) := by
  refine ⟨rfl, ?_⟩
  induction n with
  | zero => rfl
  | succ k ih =>
    have h : next_token_times A (k + 1 + 1) ([], token) =
        next_token_times A (k + 1) ([], { token with ty := .TT_EOI }) := rfl
    rw [h]
    have h2 : next_token_times A (k + 1) ([], { token with ty := .TT_EOI }) =
        next_token_times A (k + 1) ([], token) := rfl
    rw [h2, ih]

/-! ## Number tokens -/

/-- A digit is worth between 0 and 9, and is neither the terminator nor whitespace. -/
theorem is_digit_facts (c : Char) (h : is_digit c = true) :
    0 ≤ digit_value c ∧ digit_value c ≤ 9 ∧ c ≠ '\x00' ∧ is_space c = false := by
  simp only [is_digit, Bool.or_eq_true, decide_eq_true_eq] at h
  rcases h with ((((((((h | h) | h) | h) | h) | h) | h) | h) | h) | h <;> subst h <;> decide

/-- The inner loop of the lexer, on a run of digits followed by something that
is not a digit, folds the whole run and stops right behind it. -/
theorem scan_digits_run {F : Type} (A : DoubleOps F) (rest : List Char)
    (hrest : ∀ c ∈ rest.head?, is_digit c = false) :
    ∀ (d : List Char) (num : F), (∀ c ∈ d, is_digit c = true) →
      scan_digits A num (d ++ rest) =
        (d.foldl (fun v c => A.add (A.mul v (A.ofInt 10)) (A.ofInt (digit_value c))) num, rest) := by
  intro d
  induction d with
  | nil =>
    intro num _
    cases rest with
    | nil => rfl
    | cons c r =>
      have hc : is_digit c = false := hrest c (by simp)
      simp [scan_digits, hc]
  | cons c cs ih =>
    intro num hd
    have hc : is_digit c = true := hd c (List.mem_cons_self _ _)
    simp only [List.cons_append, scan_digits, hc, if_true, List.foldl_cons]
    exact ih _ (fun x hx => hd x (List.mem_cons_of_mem _ hx))

/-- The integer fold grows with every digit. -/
theorem decimal_fold_int_ge (cs : List Char) (hd : ∀ c ∈ cs, is_digit c = true) :
    ∀ v : Int, 0 ≤ v → v ≤ cs.foldl (fun v c => v * 10 + digit_value c) v := by
  induction cs with
  | nil => intro v _; simp
  | cons c cs ih =>
    intro v hv
    have hc := is_digit_facts c (hd c (List.mem_cons_self _ _))
    have h1 := ih (fun x hx => hd x (List.mem_cons_of_mem _ hx)) (v * 10 + digit_value c)
      (by omega)
    simp only [List.foldl_cons]
    omega

/-- Where the arithmetic is exact up to `bound`, the fold in doubles of a run of
digits is the double of the integer fold, as long as that stays within `bound`. -/
theorem decimal_fold_exact {F : Type} (A : DoubleOps F) (bound : Int) (hA : ExactUpTo A bound)
    (cs : List Char) (hd : ∀ c ∈ cs, is_digit c = true) :
    ∀ v : Int, 0 ≤ v → cs.foldl (fun v c => v * 10 + digit_value c) v ≤ bound →
      cs.foldl (fun v c => A.add (A.mul v (A.ofInt 10)) (A.ofInt (digit_value c))) (A.ofInt v) =
        A.ofInt (cs.foldl (fun v c => v * 10 + digit_value c) v) := by
  induction cs with
  | nil => intro v _ _; rfl
  | cons c cs ih =>
    intro v hv hb
    have hc := is_digit_facts c (hd c (List.mem_cons_self _ _))
    have hcs : ∀ x ∈ cs, is_digit x = true := fun x hx => hd x (List.mem_cons_of_mem _ hx)
    simp only [List.foldl_cons] at hb ⊢
    have hge := decimal_fold_int_ge cs hcs (v * 10 + digit_value c) (by omega)
    rw [hA.2 v hv (by omega), hA.1 (v * 10) (digit_value c) (by omega) hc.1 (by omega)]
    exact ih hcs _ (by omega) hb

/-- Below `2 ^ 53` the rounding of binary64 changes nothing. -/
theorem round_binary64_small (n : Int) (h : n.natAbs < 2 ^ 53) : round_binary64 n = some n := by
  have he : excess_bits 972 n.natAbs = 0 := by
    rw [show (972 : Nat) = 971 + 1 from rfl, excess_bits, if_pos h]
  have hne : n.natAbs ≠ 2 ^ 53 := by omega
  simp only [round_binary64, he, pow_zero, Nat.div_one, Nat.mod_one, Nat.mul_zero, Nat.mul_one,
    Nat.lt_one_iff, if_true, hne, if_false, Nat.add_zero, Nat.zero_le]
  rw [Int.sign_mul_natAbs]

/-- The arithmetic of binary64 is exact on the integers from 0 to `2 ^ 53 - 1`. -/
theorem binary64_exact : ExactUpTo binary64Ops (2 ^ 53 - 1) := by
  constructor
  · intro a b ha hb hab
    have h1 : round_binary64 a = some a := round_binary64_small a (by omega)
    have h2 : round_binary64 b = some b := round_binary64_small b (by omega)
    show (round_binary64 a >>= fun x => round_binary64 b >>= fun y => round_binary64 (x + y)) =
      round_binary64 (a + b)
    rw [h1, h2]
    rfl
  · intro a ha hab
    have h1 : round_binary64 a = some a := round_binary64_small a (by omega)
    have h2 : round_binary64 10 = some 10 := rfl
    show (round_binary64 a >>= fun x => round_binary64 10 >>= fun y => round_binary64 (x * y)) =
      round_binary64 (a * 10)
    rw [h1, h2]
    rfl

/-- C11, as stated, fails: `9007199254740993` is a string of sixteen digits that
denotes `2 ^ 53 + 1`, and in the arithmetic of binary64 the payload of its token
is `2 ^ 53`: the last sum `9007199254740990 + 3` is rounded. -/
theorem next_token_number_rounds :
    (∀ c ∈ "9007199254740993".toList, is_digit c = true) ∧
    decimal_value "9007199254740993".toList = 9007199254740993 ∧
    next_token binary64Ops "9007199254740993".toList { ty := .TT_EOI, maybe_number := none } =
      .ok ([], { ty := .TT_NUMBER, maybe_number := some 9007199254740992 }) ∧
    binary64Ops.val (some 9007199254740992) ≠
      some ((decimal_value "9007199254740993".toList : Int) : ℚ) := by
  refine ⟨by decide, by decide, rfl, ?_⟩
  have h : decimal_value "9007199254740993".toList = 9007199254740993 := by decide
  rw [h]
  simp [binary64Ops]

/-- C11, amended.  With the cursor at a non-empty run `d` of digits that is
followed by the end of the input or by a character that is not a digit,
`next_token` returns a number token and leaves the cursor right behind `d`; the
payload is the result of `value = value*10 + digit`, carried out from left to
right in the arithmetic of doubles.  Where that arithmetic is exact up to
`bound` and the integer `d` denotes is at most `bound`, the payload is the
double of that integer. -/
theorem next_token_number {F : Type} (A : DoubleOps F) (d rest : List Char) (token : Token F)
    (bound : Int) (hne : d ≠ []) (hd : ∀ c ∈ d, is_digit c = true)
    (hrest : ∀ c ∈ rest.head?, is_digit c = false) :
    next_token A (d ++ rest) token =
      .ok (rest, { ty := .TT_NUMBER, maybe_number := decimal_fold A d }) ∧
    (ExactUpTo A bound → decimal_value d ≤ bound →
      decimal_fold A d = A.ofInt (decimal_value d)) := by
  cases d with
  | nil => exact absurd rfl hne
  | cons c cs =>
    have hc := is_digit_facts c (hd c (List.mem_cons_self _ _))
    have hcs : ∀ x ∈ cs, is_digit x = true := fun x hx => hd x (List.mem_cons_of_mem _ hx)
    constructor
    · simp only [List.cons_append, next_token, hc.2.2.1, hc.2.2.2, if_false,
        hd c (List.mem_cons_self _ _), if_true, Bool.false_eq_true]
      rw [show cs.append rest = cs ++ rest from rfl,
        scan_digits_run A rest hrest cs _ hcs]
      rfl
    · intro hA hb
      have h0 : decimal_value (c :: cs) =
          cs.foldl (fun v c => v * 10 + digit_value c) (digit_value c) := by
        simp [decimal_value]
      rw [h0] at hb ⊢
      exact decimal_fold_exact A bound hA cs hcs (digit_value c) hc.1 hb

/-- Witness of C11: in the arithmetic of binary64 the token of `2024` in
`2024 + 1` has the payload 2024, and the cursor is left at ` + 1`. -/
theorem next_token_number_witness :
    next_token binary64Ops "2024 + 1".toList { ty := .TT_EOI, maybe_number := none } =
      .ok (" + 1".toList, { ty := .TT_NUMBER, maybe_number := binary64Ops.ofInt 2024 }) := by
  have h := next_token_number binary64Ops "2024".toList " + 1".toList
    { ty := .TT_EOI, maybe_number := none } (2 ^ 53 - 1) (by decide) (by decide) (by decide)
  have h2 := h.2 binary64_exact (by decide)
  have h3 : decimal_value "2024".toList = 2024 := by decide
  rw [h2, h3] at h
  exact h.1

/-! ## What the parser returns -/

/-- C18.  The top-level parse drops a token: on `1 + 2 -` it returns, at the end
of the input, the tree of `1 + 2`, whose in-order sequence has three entries,
while the lexer produces four tokens from that input: the last one, `-`, is
in no node. -/
theorem parse_drops_token {F : Type} (A : DoubleOps F) (token : Token F) (fuel : Nat) :
    parse_expression A (fuel + 4) "1 + 2 -".toList token 0 =
      .ok (.expr OP_ADD (.number (A.ofInt 1)) (.number (A.ofInt 2)), [],
           { ty := .TT_EOI, maybe_number := A.ofInt 2 }) ∧
    in_order (Expression.expr OP_ADD (.number (A.ofInt 1)) (.number (A.ofInt 2))) =
      [(.TT_NUMBER, some (A.ofInt 1)), (.TT_PLUS, none), (.TT_NUMBER, some (A.ofInt 2))] ∧
    token_sequence A "1 + 2 -".toList token =
      ([(.TT_NUMBER, some (A.ofInt 1)), (.TT_PLUS, none), (.TT_NUMBER, some (A.ofInt 2)),
        (.TT_MINUS, none)], none) :=
  ⟨rfl, rfl, rfl⟩

/-! ## Releasing the tree -/

/-- On a tree of the six operators without an exponent node `free_ast` passes
every node to `free`, children first. -/
theorem free_ast_without_exponent {F : Type} :
    ∀ tree : Expression F, operator_tree tree → OP_EXP ∉ node_tags tree →
      free_ast tree = nodes tree := by
  intro tree
  induction tree with
  | number n => intro _ _; rfl
  | expr op left right ihl ihr =>
    intro h hexp
    obtain ⟨hop, hl, hr⟩ := h
    simp only [node_tags, List.mem_cons, List.mem_append, not_or] at hexp
    obtain ⟨hne, hel, her⟩ := hexp
    have hif : op = OP_ADD ∨ op = OP_SUB ∨ op = OP_MUL ∨ op = OP_DIV ∨ op = OP_REM := by
      rcases hop with h1 | h1 | h1 | h1 | h1 | h1
      · exact Or.inl h1
      · exact Or.inr (Or.inl h1)
      · exact Or.inr (Or.inr (Or.inl h1))
      · exact Or.inr (Or.inr (Or.inr (Or.inl h1)))
      · exact Or.inr (Or.inr (Or.inr (Or.inr h1)))
      · exact absurd h1.symm hne
    simp only [free_ast, nodes, if_pos hif, ihl hl hel, ihr hr her]

/-- C19.  On a node tagged exponentiation `free_ast` releases the node and
neither of its children: its `switch` lists add, subtract, multiply, divide and
remainder, and the exponent falls into `default`.  The tree of `2 ** 3` has
three nodes, and one of them is released. -/
theorem free_ast_leaks_exponent {F : Type} (a b : F) :
    free_ast (Expression.expr OP_EXP (.number a) (.number b)) = [[]] ∧
    nodes (Expression.expr OP_EXP (.number a) (.number b)) = [[false], [true], []] ∧
    free_ast (Expression.expr OP_REM (.number a) (.number b)) = [[false], [true], []] :=
  ⟨rfl, rfl, rfl⟩

/-! ## The cursor only advances -/

/-- The inner loop of the lexer leaves the cursor at a suffix of where it was. -/
theorem scan_digits_suffix {F : Type} (A : DoubleOps F) :
    ∀ (next : List Char) (num : F), (scan_digits A num next).2 <:+ next := by
  intro next
  induction next with
  | nil => intro num; simp [scan_digits]
  | cons c rest ih =>
    intro num
    rw [scan_digits]
    split
    · exact List.IsSuffix.trans (ih _) (List.suffix_cons c rest)
    · exact List.suffix_refl _

/-- A call of `next_token` leaves the cursor at a suffix of where it was: the
cursor moves neither backward nor beyond the end of the input. -/
theorem next_token_suffix {F : Type} (A : DoubleOps F) :
    ∀ (next : List Char) (token : Token F) (next1 : List Char) (token1 : Token F),
      next_token A next token = .ok (next1, token1) → next1 <:+ next := by
  intro next
  induction next with
  | nil =>
    intro token next1 token1 h
    simp [next_token] at h
    rw [h.1]
  | cons c rest ih =>
    intro token next1 token1 h
    simp only [next_token] at h
    split_ifs at h
    · simp at h; rw [← h.1]
    · exact List.IsSuffix.trans (ih token next1 token1 h) (List.suffix_cons c rest)
    · simp at h
      rw [← h.1]
      exact List.IsSuffix.trans (scan_digits_suffix A rest _) (List.suffix_cons c rest)
    · simp at h; rw [← h.1]; exact List.suffix_cons c rest
    · simp at h; rw [← h.1]; exact List.suffix_cons c rest
    · split at h
      · simp at h; rw [← h.1]; exact List.suffix_cons c _
      · split_ifs at h
        · simp at h
          rw [← h.1]
          exact List.IsSuffix.trans (List.suffix_cons _ _) (List.suffix_cons c _)
        · simp at h; rw [← h.1]; exact List.suffix_cons c _
    · simp at h; rw [← h.1]; exact List.suffix_cons c rest
    · simp at h; rw [← h.1]; exact List.suffix_cons c rest

/-- The stops of `parse_expression` and of its loop: a lex error, one of the two
parse errors, a read outside `BP_VALUES`, or the end of the fuel. -/
theorem parse_error_kinds {F : Type} (A : DoubleOps F) : ∀ fuel : Nat,
    (∀ next token min_bp e, parse_expression A fuel next token min_bp = .error e →
      (∃ c, e = .invalid_character c) ∨ (∃ id, e = .invalid_token id) ∨
      (∃ id, e = .token_not_impl id) ∨ (∃ i, e = .out_of_bounds i) ∨ e = .out_of_fuel) ∧
    (∀ next token min_bp left_side e,
      parse_loop A fuel next token min_bp left_side = .error e →
      (∃ c, e = .invalid_character c) ∨ (∃ id, e = .invalid_token id) ∨
      (∃ id, e = .token_not_impl id) ∨ (∃ i, e = .out_of_bounds i) ∨ e = .out_of_fuel) := by
  intro fuel
  induction fuel with
  | zero =>
    constructor
    · intro next token min_bp e h
      simp [parse_expression] at h
      simp [← h]
    · intro next token min_bp left_side e h
      simp [parse_loop] at h
      simp [← h]
  | succ fuel ih =>
    constructor
    · intro next token min_bp e h
      rw [parse_expression] at h
      cases hnt : next_token A next token with
      | error err =>
        rw [hnt] at h
        simp at h
        obtain ⟨c, _, hc⟩ := next_token_error A next token err hnt
        exact Or.inl ⟨c, by rw [← h, hc]⟩
      | ok p =>
        obtain ⟨next1, token1⟩ := p
        rw [hnt] at h
        cases hty : token1.ty <;> simp [hty] at h
        case TT_NUMBER => exact ih.2 _ _ _ _ _ h
        all_goals exact Or.inr (Or.inl ⟨_, h.symm⟩)
    · intro next token min_bp left_side e h
      rw [parse_loop] at h
      cases hnt : next_token A next token with
      | error err =>
        rw [hnt] at h
        simp at h
        obtain ⟨c, _, hc⟩ := next_token_error A next token err hnt
        exact Or.inl ⟨c, by rw [← h, hc]⟩
      | ok p =>
        obtain ⟨next1, token1⟩ := p
        rw [hnt] at h
        cases hty : token1.ty <;> simp only [hty] at h
        case TT_EOI => simp at h
        case TT_NUMBER =>
          simp at h
          exact Or.inr (Or.inr (Or.inl ⟨_, h.symm⟩))
        all_goals
          split at h
          · rename_i err hbp
            simp at h
            have := read_bp_error _ _ hbp
            exact Or.inr (Or.inr (Or.inr (Or.inl ⟨_, by rw [← h, this]⟩)))
          · rename_i lbp hl
            by_cases hlt : lbp < min_bp
            · rw [if_pos hlt] at h
              simp at h
            · rw [if_neg hlt] at h
              split at h
              · rename_i err hbp
                simp at h
                have := read_bp_error _ _ hbp
                exact Or.inr (Or.inr (Or.inr (Or.inl ⟨_, by rw [← h, this]⟩)))
              · split at h
                · rename_i err hpe
                  simp at h
                  rw [← h]
                  exact ih.1 _ _ _ _ hpe
                · exact ih.2 _ _ _ _ _ h

/-! ## Whitespace -/

/-- One unfolding of `lexemes`. -/
theorem lexemes_succ {F : Type} (A : DoubleOps F) (fuel : Nat) (next : List Char)
    (token : Token F) :
    lexemes A (fuel + 1) next token =
      match next_token A next token with
      | .error e => ([], some e)
      | .ok (next1, token1) =>
        if token1.ty = .TT_EOI then ([], none)
        else (lexeme token1 :: (lexemes A fuel next1 token1).1,
              (lexemes A fuel next1 token1).2) := by
  rw [lexemes]

/-- Two tokens that follow the same token and say the same are the same. -/
theorem token_eq_of_lexeme {F : Type} (A : DoubleOps F) (next1 next2 : List Char)
    (token : Token F) (n1 n2 : List Char) (t1 t2 : Token F)
    (h1 : next_token A next1 token = .ok (n1, t1))
    (h2 : next_token A next2 token = .ok (n2, t2))
    (hl : lexeme t1 = lexeme t2) : t1 = t2 := by
  have hty : t1.ty = t2.ty := congrArg Prod.fst hl
  have hp : (if t1.ty = .TT_NUMBER then some t1.maybe_number else none) =
      (if t2.ty = .TT_NUMBER then some t2.maybe_number else none) := congrArg Prod.snd hl
  have hnum : t1.maybe_number = t2.maybe_number := by
    by_cases hn : t1.ty = .TT_NUMBER
    · have hn2 : t2.ty = .TT_NUMBER := hty ▸ hn
      rw [if_pos hn, if_pos hn2] at hp
      exact Option.some.inj hp
    · have hn2 : t2.ty ≠ .TT_NUMBER := hty ▸ hn
      rw [next_token_keeps_payload A next1 token n1 t1 h1 hn,
        next_token_keeps_payload A next2 token n2 t2 h2 hn2]
  cases t1; cases t2
  simp only at hty hnum
  rw [hty, hnum]

/-- From two cursors with the same tokens ahead, `next_token` stops with the
same error, or returns the same token at cursors with the same tokens ahead. -/
theorem same_tokens_step {F : Type} (A : DoubleOps F) (next1 next2 : List Char)
    (token : Token F) (h : same_tokens A next1 next2 token) :
    (∃ e, next_token A next1 token = .error e ∧ next_token A next2 token = .error e) ∨
    (∃ n1 n2 t1, next_token A next1 token = .ok (n1, t1) ∧
      next_token A next2 token = .ok (n2, t1) ∧ same_tokens A n1 n2 t1) := by
  obtain ⟨f1, f2, hf1, hf2, heq⟩ := h
  obtain ⟨g1, rfl⟩ : ∃ g, f1 = g + 1 := ⟨f1 - 1, by omega⟩
  obtain ⟨g2, rfl⟩ : ∃ g, f2 = g + 1 := ⟨f2 - 1, by omega⟩
  rw [lexemes_succ, lexemes_succ] at heq
  cases hn1 : next_token A next1 token with
  | error e1 =>
    cases hn2 : next_token A next2 token with
    | error e2 =>
      rw [hn1, hn2] at heq
      simp at heq
      exact Or.inl ⟨e1, rfl, by rw [heq]⟩
    | ok p2 =>
      obtain ⟨n2, t2⟩ := p2
      rw [hn1, hn2] at heq
      simp only at heq
      split_ifs at heq <;> simp at heq
  | ok p1 =>
    obtain ⟨n1, t1⟩ := p1
    have hlen1 := next_token_length A next1 token n1 t1 hn1
    cases hn2 : next_token A next2 token with
    | error e2 =>
      rw [hn1, hn2] at heq
      simp only at heq
      split_ifs at heq <;> simp at heq
    | ok p2 =>
      obtain ⟨n2, t2⟩ := p2
      have hlen2 := next_token_length A next2 token n2 t2 hn2
      rw [hn1, hn2] at heq
      simp only at heq
      right
      by_cases he1 : t1.ty = .TT_EOI
      · by_cases he2 : t2.ty = .TT_EOI
        · have ht : t1 = t2 := by
            refine token_eq_of_lexeme A next1 next2 token n1 n2 t1 t2 hn1 hn2 ?_
            simp [lexeme, he1, he2]
          subst ht
          refine ⟨n1, n2, t1, rfl, rfl, g1 + 1, g2 + 1, by omega, by omega, ?_⟩
          rw [lexemes_succ, lexemes_succ,
            next_token_eoi_fixed A next1 token n1 t1 hn1 he1,
            next_token_eoi_fixed A next2 token n2 t1 hn2 he1]
          simp only [he1, if_true]
        · rw [if_pos he1, if_neg he2] at heq
          simp at heq
      · by_cases he2 : t2.ty = .TT_EOI
        · rw [if_neg he1, if_pos he2] at heq
          simp at heq
        · rw [if_neg he1, if_neg he2] at heq
          simp only [Prod.mk.injEq, List.cons.injEq] at heq
          obtain ⟨⟨hl, htl⟩, hterm⟩ := heq
          have ht : t1 = t2 := token_eq_of_lexeme A next1 next2 token n1 n2 t1 t2 hn1 hn2 hl
          subst ht
          have h1 := hlen1.2 he1
          have h2 := hlen2.2 he1
          exact ⟨n1, n2, t1, rfl, rfl, g1, g2, by omega, by omega, Prod.ext htl hterm⟩


/-- The parser sees its input through `next_token` only: from two cursors with
the same tokens ahead, and with the same fuel, `parse_expression` and its loop
end alike. -/
theorem parse_same_tokens {F : Type} (A : DoubleOps F) : ∀ fuel : Nat,
    (∀ next1 next2 token min_bp, same_tokens A next1 next2 token →
      same_result A (parse_expression A fuel next1 token min_bp)
        (parse_expression A fuel next2 token min_bp)) ∧
    (∀ next1 next2 token min_bp left_side, same_tokens A next1 next2 token →
      same_result A (parse_loop A fuel next1 token min_bp left_side)
        (parse_loop A fuel next2 token min_bp left_side)) := by
  intro fuel
  induction fuel with
  | zero =>
    constructor
    · intro next1 next2 token min_bp _
      simp [parse_expression, same_result]
    · intro next1 next2 token min_bp left_side _
      simp [parse_loop, same_result]
  | succ fuel ih =>
    constructor
    · intro next1 next2 token min_bp hs
      rw [parse_expression_succ, parse_expression_succ]
      rcases same_tokens_step A next1 next2 token hs with
        ⟨e, h1, h2⟩ | ⟨n1, n2, t1, h1, h2, hs1⟩
      · rw [h1, h2]
        simp [same_result]
      · rw [h1, h2]
        cases hty : t1.ty <;> simp only [hty, same_result]
        exact ih.2 _ _ _ _ _ hs1
    · intro next1 next2 token min_bp left_side hs
      rw [parse_loop_succ, parse_loop_succ]
      rcases same_tokens_step A next1 next2 token hs with
        ⟨e, h1, h2⟩ | ⟨n1, n2, t1, h1, h2, hs1⟩
      · rw [h1, h2]
        simp [same_result]
      · rw [h1, h2]
        cases hty : t1.ty <;> simp only [hty]
        case TT_EOI => exact ⟨rfl, rfl, hs1⟩
        case TT_NUMBER => simp [same_result]
        all_goals
          cases hl : get_left_bp _ with
          | error e => simp [same_result]
          | ok lbp =>
            simp only
            split_ifs
            · exact ⟨rfl, rfl, hs1⟩
            · cases hr : get_right_bp _ with
              | error e => simp [same_result]
              | ok rbp =>
                simp only
                have hrec := ih.1 n1 n2 t1 rbp hs1
                cases hp1 : parse_expression A fuel n1 t1 rbp with
                | error e1 =>
                  cases hp2 : parse_expression A fuel n2 t1 rbp with
                  | error e2 =>
                    rw [hp1, hp2] at hrec
                    simpa [same_result] using hrec
                  | ok q2 =>
                    rw [hp1, hp2] at hrec
                    simp [same_result] at hrec
                | ok q1 =>
                  obtain ⟨right1, next3, token3⟩ := q1
                  cases hp2 : parse_expression A fuel n2 t1 rbp with
                  | error e2 =>
                    rw [hp1, hp2] at hrec
                    simp [same_result] at hrec
                  | ok q2 =>
                    obtain ⟨right2, next4, token4⟩ := q2
                    rw [hp1, hp2] at hrec
                    obtain ⟨hr1, hr2, hr3⟩ := hrec
                    subst hr1; subst hr2
                    exact ih.2 _ _ _ _ _ hr3


/-- C12.  Two inputs that repeated `next_token` turns into the same token
sequence give the same outcome of the whole run: the same value or the same
stop. -/
theorem main_whitespace_insensitive {F : Type} (A : DoubleOps F) (token : Token F)
    (p1 p2 s1 s2 : String)
    (h : token_sequence A s1.toList token = token_sequence A s2.toList token) :
    main A token [p1, s1] = main A token [p2, s2] := by
  have hs : same_tokens A s1.toList s2.toList token :=
    ⟨s1.toList.length + 1, s2.toList.length + 1, by omega, by omega, h⟩
  have hrel := (parse_same_tokens A (s1.toList.length + s2.toList.length + 1)).1
    s1.toList s2.toList token 0 hs
  have e1 := parse_expression_fuel A s1.toList token 0
    (s1.toList.length + s2.toList.length + 1) (by omega)
  have e2 := parse_expression_fuel A s2.toList token 0
    (s1.toList.length + s2.toList.length + 1) (by omega)
  rw [e1, e2] at hrel
  show (match parse_expression A (s1.toList.length + 1) s1.toList token 0 with
      | Except.error e => (Except.error e : Except Error F)
      | Except.ok (expr, _, _) => eval A expr) =
    (match parse_expression A (s2.toList.length + 1) s2.toList token 0 with
      | Except.error e => (Except.error e : Except Error F)
      | Except.ok (expr, _, _) => eval A expr)
  cases hp1 : parse_expression A (s1.toList.length + 1) s1.toList token 0 with
  | error e1 =>
    cases hp2 : parse_expression A (s2.toList.length + 1) s2.toList token 0 with
    | error e2 =>
      rw [hp1, hp2] at hrel
      have : e1 = e2 := hrel
      rw [this]
    | ok q2 =>
      rw [hp1, hp2] at hrel
      exact absurd hrel (by simp [same_result])
  | ok q1 =>
    obtain ⟨tree1, n1, t1⟩ := q1
    cases hp2 : parse_expression A (s2.toList.length + 1) s2.toList token 0 with
    | error e2 =>
      rw [hp1, hp2] at hrel
      exact absurd hrel (by simp [same_result])
    | ok q2 =>
      obtain ⟨tree2, n2, t2⟩ := q2
      rw [hp1, hp2] at hrel
      have : tree1 = tree2 := hrel.1
      rw [this]

/-- Witness of C12: `2+3` and `  2  +  3  ` have the same token sequence, and
the runs on them end alike. -/
theorem main_whitespace_insensitive_witness :
    token_sequence exactOps "2+3".toList token0 =
      token_sequence exactOps "  2  +  3  ".toList token0 ∧
    main exactOps token0 ["eval", "2+3"] = main exactOps token0 ["eval", "  2  +  3  "] ∧
    main exactOps token0 ["eval", "2+3"] = .ok (exactOps.add (exactOps.ofInt 2) (exactOps.ofInt 3)) :=
  ⟨rfl, main_whitespace_insensitive exactOps token0 "eval" "eval" "2+3" "  2  +  3  " rfl, rfl⟩


/-! ## The parser that reads on: progress and termination -/

/-- One unfolding of `parse_expression_mem`. -/
theorem parse_expression_mem_succ {F : Type} (A : DoubleOps F) (mem : Nat → Int) (fuel : Nat)
    (next : List Char) (token : Token F) (min_bp : Int) :
    parse_expression_mem A mem (fuel + 1) next token min_bp =
      match next_token A next token with
      | .error e => .error e
      | .ok (next1, token1) =>
        match token1.ty with
        | .TT_NUMBER =>
          parse_loop_mem A mem fuel next1 token1 min_bp (.number token1.maybe_number)
        | _ => .error (.invalid_token token1.ty.id) := by
  rw [parse_expression_mem]

/-- One unfolding of `parse_loop_mem`. -/
theorem parse_loop_mem_succ {F : Type} (A : DoubleOps F) (mem : Nat → Int) (fuel : Nat)
    (next : List Char) (token : Token F) (min_bp : Int) (left_side : Expression F) :
    parse_loop_mem A mem (fuel + 1) next token min_bp left_side =
      match next_token A next token with
      | .error e => .error e
      | .ok (next1, token1) =>
        match token1.ty with
        | .TT_EOI => .ok (left_side, next1, token1)
        | .TT_PLUS | .TT_MINUS | .TT_STAR | .TT_SLASH | .TT_PERCENT | .TT_STAR_STAR =>
          if get_left_bp_mem mem token1.ty.id < min_bp then .ok (left_side, next1, token1)
          else
            match parse_expression_mem A mem fuel next1 token1
                (get_right_bp_mem mem token1.ty.id) with
            | .error e => .error e
            | .ok (right, next2, token2) =>
              parse_loop_mem A mem fuel next2 token2 min_bp
                (.expr token1.ty.id left_side right)
        | _ => .error (.token_not_impl token1.ty.id) := by
  rw [parse_loop_mem]

/-- A call of `parse_expression_mem` that returns has moved the cursor forward,
to a suffix of where it was; its loop leaves the cursor at a suffix. -/
theorem parse_mem_progress {F : Type} (A : DoubleOps F) (mem : Nat → Int) : ∀ fuel : Nat,
    (∀ next token min_bp e next2 token2,
      parse_expression_mem A mem fuel next token min_bp = .ok (e, next2, token2) →
      next2 <:+ next ∧ next2.length < next.length) ∧
    (∀ next token min_bp left_side e next2 token2,
      parse_loop_mem A mem fuel next token min_bp left_side = .ok (e, next2, token2) →
      next2 <:+ next) := by
  intro fuel
  induction fuel with
  | zero =>
    constructor
    · intro next token min_bp e next2 token2 h
      simp [parse_expression_mem] at h
    · intro next token min_bp left_side e next2 token2 h
      simp [parse_loop_mem] at h
  | succ fuel ih =>
    constructor
    · intro next token min_bp e next2 token2 h
      rw [parse_expression_mem_succ] at h
      cases hnt : next_token A next token with
      | error err => rw [hnt] at h; simp at h
      | ok p =>
        obtain ⟨next1, token1⟩ := p
        rw [hnt] at h
        have hlen := next_token_length A next token next1 token1 hnt
        have hsuf := next_token_suffix A next token next1 token1 hnt
        cases hty : token1.ty <;> simp [hty] at h
        have h1 := ih.2 _ _ _ _ _ _ _ h
        have h2 := hlen.2 (by simp [hty])
        have h3 := h1.length_le
        exact ⟨h1.trans hsuf, by omega⟩
    · intro next token min_bp left_side e next2 token2 h
      rw [parse_loop_mem_succ] at h
      cases hnt : next_token A next token with
      | error err => rw [hnt] at h; simp at h
      | ok p =>
        obtain ⟨next1, token1⟩ := p
        rw [hnt] at h
        have hsuf := next_token_suffix A next token next1 token1 hnt
        cases hty : token1.ty <;> simp only [hty] at h
        case TT_EOI =>
          simp at h
          obtain ⟨_, h2, _⟩ := h
          subst h2
          exact hsuf
        case TT_NUMBER => simp at h
        all_goals
          split at h
          · simp at h
            obtain ⟨_, h2, _⟩ := h
            subst h2
            exact hsuf
          · split at h
            · simp at h
            · rename_i right next3 token3 hpe
              have h1 := (ih.1 _ _ _ _ _ _ hpe).1
              have h2 := ih.2 _ _ _ _ _ _ _ h
              exact (h2.trans h1).trans hsuf

/-- With more fuel than the input has characters, neither `parse_expression_mem`
nor its loop runs out of fuel. -/
theorem parse_mem_enough_fuel {F : Type} (A : DoubleOps F) (mem : Nat → Int) : ∀ fuel : Nat,
    (∀ next token min_bp, next.length < fuel →
      parse_expression_mem A mem fuel next token min_bp ≠ .error .out_of_fuel) ∧
    (∀ next token min_bp left_side, next.length < fuel →
      parse_loop_mem A mem fuel next token min_bp left_side ≠ .error .out_of_fuel) := by
  intro fuel
  induction fuel with
  | zero =>
    constructor
    · intro next token min_bp h; omega
    · intro next token min_bp left_side h; omega
  | succ fuel ih =>
    constructor
    · intro next token min_bp hf
      rw [parse_expression_mem_succ]
      cases hnt : next_token A next token with
      | error err =>
        obtain ⟨c, _, hc⟩ := next_token_error A next token err hnt
        simp [hc]
      | ok p =>
        obtain ⟨next1, token1⟩ := p
        have hlen := next_token_length A next token next1 token1 hnt
        cases hty : token1.ty <;> simp [hty]
        have h2 := hlen.2 (by simp [hty])
        exact ih.2 _ _ _ _ (by omega)
    · intro next token min_bp left_side hf
      rw [parse_loop_mem_succ]
      cases hnt : next_token A next token with
      | error err =>
        obtain ⟨c, _, hc⟩ := next_token_error A next token err hnt
        simp [hc]
      | ok p =>
        obtain ⟨next1, token1⟩ := p
        have hlen := next_token_length A next token next1 token1 hnt
        cases hty : token1.ty <;> simp only [hty]
        case TT_EOI => simp
        case TT_NUMBER => simp
        all_goals
          have h2 := hlen.2 (by simp [hty])
          split
          · simp
          · split
            · rename_i err hpe
              intro hcon
              simp at hcon
              subst hcon
              exact ih.1 _ _ _ (by omega) hpe
            · rename_i right next3 token3 hpe
              have h1 := ((parse_mem_progress A mem fuel).1 _ _ _ _ _ _ hpe).2
              exact ih.2 _ _ _ _ (by omega)

/-- A run of `parse_expression_mem` that did not run out of fuel is not changed
by more fuel. -/
theorem parse_mem_fuel_mono {F : Type} (A : DoubleOps F) (mem : Nat → Int) : ∀ fuel : Nat,
    (∀ next token min_bp,
      parse_expression_mem A mem fuel next token min_bp ≠ .error .out_of_fuel →
      parse_expression_mem A mem (fuel + 1) next token min_bp =
        parse_expression_mem A mem fuel next token min_bp) ∧
    (∀ next token min_bp left_side,
      parse_loop_mem A mem fuel next token min_bp left_side ≠ .error .out_of_fuel →
      parse_loop_mem A mem (fuel + 1) next token min_bp left_side =
        parse_loop_mem A mem fuel next token min_bp left_side) := by
  intro fuel
  induction fuel with
  | zero =>
    constructor
    · intro next token min_bp h
      exact absurd (by rw [parse_expression_mem]) h
    · intro next token min_bp left_side h
      exact absurd (by rw [parse_loop_mem]) h
  | succ fuel ih =>
    constructor
    · intro next token min_bp h
      rw [parse_expression_mem_succ A mem (fuel + 1), parse_expression_mem_succ A mem fuel]
      rw [parse_expression_mem_succ A mem fuel] at h
      cases hnt : next_token A next token with
      | error err => rfl
      | ok p =>
        obtain ⟨next1, token1⟩ := p
        rw [hnt] at h
        cases hty : token1.ty <;> simp only [hty] at h ⊢
        exact ih.2 _ _ _ _ h
    · intro next token min_bp left_side h
      rw [parse_loop_mem_succ A mem (fuel + 1), parse_loop_mem_succ A mem fuel]
      rw [parse_loop_mem_succ A mem fuel] at h
      cases hnt : next_token A next token with
      | error err => rfl
      | ok p =>
        obtain ⟨next1, token1⟩ := p
        rw [hnt] at h
        cases hty : token1.ty <;> simp only [hty] at h ⊢
        all_goals
          split
          · rfl
          · rename_i hlt
            simp only [hlt, if_false] at h
            cases hpe : parse_expression_mem A mem fuel next1 token1 _ with
            | error err =>
              rw [hpe] at h
              rw [ih.1, hpe]
              rw [hpe]
              intro hc
              rw [hc] at h
              exact h rfl
            | ok q =>
              obtain ⟨right, next2, token2⟩ := q
              rw [hpe] at h
              rw [ih.1, hpe]
              · exact ih.2 _ _ _ _ h
              · rw [hpe]
                intro hc
                cases hc

/-- More fuel than the input has characters is as good as any larger amount. -/
theorem parse_expression_mem_fuel {F : Type} (A : DoubleOps F) (mem : Nat → Int)
    (next : List Char) (token : Token F) (min_bp : Int) (fuel : Nat) (h : next.length < fuel) :
    parse_expression_mem A mem fuel next token min_bp =
      parse_expression_mem A mem (next.length + 1) next token min_bp := by
  induction fuel with
  | zero => omega
  | succ k ih =>
    rcases Nat.lt_or_ge next.length k with hk | hk
    · rw [(parse_mem_fuel_mono A mem k).1 _ _ _ ((parse_mem_enough_fuel A mem k).1 _ _ _ hk),
        ih hk]
    · have : k = next.length := by omega
      subst this
      rfl


/-- The stops of `parse_expression_mem` and of its loop: a lex error, one of the
two parse errors, or the end of the fuel. -/
theorem parse_mem_error_kinds {F : Type} (A : DoubleOps F) (mem : Nat → Int) : ∀ fuel : Nat,
    (∀ next token min_bp e, parse_expression_mem A mem fuel next token min_bp = .error e →
      (∃ c, e = .invalid_character c) ∨ (∃ id, e = .invalid_token id) ∨
      (∃ id, e = .token_not_impl id) ∨ e = .out_of_fuel) ∧
    (∀ next token min_bp left_side e,
      parse_loop_mem A mem fuel next token min_bp left_side = .error e →
      (∃ c, e = .invalid_character c) ∨ (∃ id, e = .invalid_token id) ∨
      (∃ id, e = .token_not_impl id) ∨ e = .out_of_fuel) := by
  intro fuel
  induction fuel with
  | zero =>
    constructor
    · intro next token min_bp e h
      simp [parse_expression_mem] at h
      simp [← h]
    · intro next token min_bp left_side e h
      simp [parse_loop_mem] at h
      simp [← h]
  | succ fuel ih =>
    constructor
    · intro next token min_bp e h
      rw [parse_expression_mem_succ] at h
      cases hnt : next_token A next token with
      | error err =>
        rw [hnt] at h
        simp at h
        obtain ⟨c, _, hc⟩ := next_token_error A next token err hnt
        exact Or.inl ⟨c, by rw [← h, hc]⟩
      | ok p =>
        obtain ⟨next1, token1⟩ := p
        rw [hnt] at h
        cases hty : token1.ty <;> simp [hty] at h
        case TT_NUMBER => exact ih.2 _ _ _ _ _ h
        all_goals exact Or.inr (Or.inl ⟨_, h.symm⟩)
    · intro next token min_bp left_side e h
      rw [parse_loop_mem_succ] at h
      cases hnt : next_token A next token with
      | error err =>
        rw [hnt] at h
        simp at h
        obtain ⟨c, _, hc⟩ := next_token_error A next token err hnt
        exact Or.inl ⟨c, by rw [← h, hc]⟩
      | ok p =>
        obtain ⟨next1, token1⟩ := p
        rw [hnt] at h
        cases hty : token1.ty <;> simp only [hty] at h
        case TT_EOI => simp at h
        case TT_NUMBER =>
          simp at h
          exact Or.inr (Or.inr (Or.inl ⟨_, h.symm⟩))
        all_goals
          split at h
          · simp at h
          · split at h
            · rename_i err hpe
              simp at h
              rw [← h]
              exact ih.1 _ _ _ _ hpe
            · exact ih.2 _ _ _ _ _ h

/-- Every tree that `parse_expression_mem` or its loop returns has one of the
six operators at each node with two children. -/
theorem parse_mem_operator_tree {F : Type} (A : DoubleOps F) (mem : Nat → Int) :
    ∀ fuel : Nat,
    (∀ next token min_bp tree next2 token2,
      parse_expression_mem A mem fuel next token min_bp = .ok (tree, next2, token2) →
      operator_tree tree) ∧
    (∀ next token min_bp left_side tree next2 token2,
      operator_tree left_side →
      parse_loop_mem A mem fuel next token min_bp left_side = .ok (tree, next2, token2) →
      operator_tree tree) := by
  intro fuel
  induction fuel with
  | zero =>
    constructor
    · intro next token min_bp tree next2 token2 h
      simp [parse_expression_mem] at h
    · intro next token min_bp left_side tree next2 token2 _ h
      simp [parse_loop_mem] at h
  | succ fuel ih =>
    constructor
    · intro next token min_bp tree next2 token2 h
      rw [parse_expression_mem_succ] at h
      cases hnt : next_token A next token with
      | error err => rw [hnt] at h; simp at h
      | ok p =>
        obtain ⟨next1, token1⟩ := p
        rw [hnt] at h
        cases hty : token1.ty <;> simp [hty] at h
        exact ih.2 _ _ _ _ _ _ _ (by simp [operator_tree]) h
    · intro next token min_bp left_side tree next2 token2 hleft h
      rw [parse_loop_mem_succ] at h
      cases hnt : next_token A next token with
      | error err => rw [hnt] at h; simp at h
      | ok p =>
        obtain ⟨next1, token1⟩ := p
        rw [hnt] at h
        cases hty : token1.ty <;> simp only [hty] at h
        case TT_EOI =>
          simp at h
          obtain ⟨h1, _, _⟩ := h
          subst h1
          exact hleft
        case TT_NUMBER => simp at h
        all_goals
          split at h
          · simp at h
            obtain ⟨h1, _, _⟩ := h
            subst h1
            exact hleft
          · split at h
            · simp at h
            · rename_i right next3 token3 hpe
              refine ih.2 _ _ _ _ _ _ _ ?_ h
              refine ⟨?_, hleft, ih.1 _ _ _ _ _ _ hpe⟩
              simp [TokenType.id, OP_ADD, OP_SUB, OP_MUL, OP_DIV, OP_REM, OP_EXP]

/-- The tags of a tree of the six operators. -/
theorem node_tags_operator_tree {F : Type} :
    ∀ tree : Expression F, operator_tree tree →
      ∀ tag ∈ node_tags tree, tag = ET_NUMBER ∨ tag = OP_ADD ∨ tag = OP_SUB ∨ tag = OP_MUL ∨
        tag = OP_DIV ∨ tag = OP_REM ∨ tag = OP_EXP := by
  intro tree
  induction tree with
  | number n => intro _ tag h; simp [node_tags] at h; exact Or.inl h
  | expr op left right ihl ihr =>
    intro h tag htag
    obtain ⟨hop, hl, hr⟩ := h
    simp only [node_tags, List.mem_cons, List.mem_append] at htag
    rcases htag with h1 | h1 | h1
    · subst h1; exact Or.inr hop
    · exact ihl hl tag h1
    · exact ihr hr tag h1

/-- A step of `eval` after a result that is a number or a remainder stop, into
results of that kind, gives a result of that kind. -/
theorem number_or_remainder_stop_bind {F G : Type} (r : Except Error G)
    (f : G → Except Error F)
    (hr : (∃ v, r = .ok v) ∨ r = .error .bad_conversion ∨ r = .error .bad_remainder)
    (hf : ∀ v, number_or_remainder_stop (f v)) :
    number_or_remainder_stop (r >>= f) := by
  rcases hr with ⟨v, rfl⟩ | rfl | rfl
  · exact hf v
  · exact Or.inr (Or.inl rfl)
  · exact Or.inr (Or.inr rfl)

/-- On a tree of the six operators `eval` returns a number, or stops at a
remainder that C leaves undefined; it reaches neither `not impl` nor the wrong
member of the union. -/
theorem eval_operator_tree {F : Type} (A : DoubleOps F) :
    ∀ tree : Expression F, operator_tree tree → number_or_remainder_stop (eval A tree) := by
  intro tree
  induction tree with
  | number n => intro _; exact Or.inl ⟨n, rfl⟩
  | expr op left right ihl ihr =>
    intro h
    obtain ⟨hop, hl, hr⟩ := h
    have il := ihl hl
    have ir := ihr hr
    have hconv : ∀ x : F, (∃ v, to_long_long A x = .ok v) ∨
        to_long_long A x = .error .bad_conversion ∨ to_long_long A x = .error .bad_remainder := by
      intro x
      unfold to_long_long
      split
      · exact Or.inr (Or.inl rfl)
      · split
        · exact Or.inl ⟨_, rfl⟩
        · exact Or.inr (Or.inl rfl)
    have hrem : ∀ a b : Int, (∃ v, rem_long_long a b = .ok v) ∨
        rem_long_long a b = .error .bad_conversion ∨
        rem_long_long a b = .error .bad_remainder := by
      intro a b
      unfold rem_long_long
      split
      · exact Or.inr (Or.inr rfl)
      · split
        · exact Or.inr (Or.inr rfl)
        · exact Or.inl ⟨_, rfl⟩
    rcases hop with h1 | h1 | h1 | h1 | h1 | h1 <;> subst h1
    · simp only [eval, OP_ADD, ET_NUMBER]
      exact number_or_remainder_stop_bind _ _ il (fun l =>
        number_or_remainder_stop_bind _ _ ir (fun r => Or.inl ⟨_, rfl⟩))
    · simp only [eval, OP_ADD, OP_SUB, ET_NUMBER]
      exact number_or_remainder_stop_bind _ _ il (fun l =>
        number_or_remainder_stop_bind _ _ ir (fun r => Or.inl ⟨_, rfl⟩))
    · simp only [eval, OP_ADD, OP_SUB, OP_MUL, ET_NUMBER]
      exact number_or_remainder_stop_bind _ _ il (fun l =>
        number_or_remainder_stop_bind _ _ ir (fun r => Or.inl ⟨_, rfl⟩))
    · simp only [eval, OP_ADD, OP_SUB, OP_MUL, OP_DIV, ET_NUMBER]
      exact number_or_remainder_stop_bind _ _ il (fun l =>
        number_or_remainder_stop_bind _ _ ir (fun r => Or.inl ⟨_, rfl⟩))
    · simp only [eval, OP_ADD, OP_SUB, OP_MUL, OP_DIV, OP_REM, ET_NUMBER]
      exact number_or_remainder_stop_bind _ _ il (fun l =>
        number_or_remainder_stop_bind _ _ (hconv l) (fun a =>
          number_or_remainder_stop_bind _ _ ir (fun r =>
            number_or_remainder_stop_bind _ _ (hconv r) (fun b =>
              number_or_remainder_stop_bind _ _ (hrem a b) (fun m => Or.inl ⟨_, rfl⟩)))))
    · simp only [eval, OP_ADD, OP_SUB, OP_MUL, OP_DIV, OP_REM, OP_EXP, ET_NUMBER]
      exact number_or_remainder_stop_bind _ _ il (fun l =>
        number_or_remainder_stop_bind _ _ ir (fun r => Or.inl ⟨_, rfl⟩))


/-- On a tree of the six operators without a remainder node `eval` returns a
number. -/
theorem eval_without_remainder {F : Type} (A : DoubleOps F) :
    ∀ tree : Expression F, operator_tree tree → OP_REM ∉ node_tags tree →
      ∃ v, eval A tree = .ok v := by
  intro tree
  induction tree with
  | number n => intro _ _; exact ⟨n, rfl⟩
  | expr op left right ihl ihr =>
    intro h hrem
    obtain ⟨hop, hl, hr⟩ := h
    simp only [node_tags, List.mem_cons, List.mem_append, not_or] at hrem
    obtain ⟨hne, hrl, hrr⟩ := hrem
    obtain ⟨l, hl1⟩ := ihl hl hrl
    obtain ⟨r, hr1⟩ := ihr hr hrr
    rcases hop with h1 | h1 | h1 | h1 | h1 | h1 <;> subst h1
    · exact ⟨A.add l r, by simp [eval, OP_ADD, ET_NUMBER, hl1, hr1, bind, Except.bind]; rfl⟩
    · exact ⟨A.sub l r, by
        simp [eval, OP_ADD, OP_SUB, ET_NUMBER, hl1, hr1, bind, Except.bind]; rfl⟩
    · exact ⟨A.mul l r, by
        simp [eval, OP_ADD, OP_SUB, OP_MUL, ET_NUMBER, hl1, hr1, bind, Except.bind]; rfl⟩
    · exact ⟨A.div l r, by
        simp [eval, OP_ADD, OP_SUB, OP_MUL, OP_DIV, ET_NUMBER, hl1, hr1, bind, Except.bind]
        rfl⟩
    · exact absurd rfl hne
    · exact ⟨A.pow l r, by
        simp [eval, OP_ADD, OP_SUB, OP_MUL, OP_DIV, OP_REM, OP_EXP, ET_NUMBER, hl1, hr1, bind,
          Except.bind]
        rfl⟩

/-- A read inside the table is the same read in both parsers. -/
theorem read_bp_mem_of_ok (mem : Nat → Int) (i : Nat) (v : Int) (h : read_bp i = .ok v) :
    read_bp_mem mem i = v := by
  unfold read_bp at h
  unfold read_bp_mem
  split at h
  · rename_i w hw
    simp at h
    simp [hw, h]
  · simp at h

/-- Where `parse_expression` does not stop at a read outside the table, the
parser that reads on does the same, whatever lies behind the table. -/
theorem parse_mem_agrees {F : Type} (A : DoubleOps F) (mem : Nat → Int) : ∀ fuel : Nat,
    (∀ next token min_bp,
      (∀ i, parse_expression A fuel next token min_bp ≠ .error (.out_of_bounds i)) →
      parse_expression_mem A mem fuel next token min_bp =
        parse_expression A fuel next token min_bp) ∧
    (∀ next token min_bp left_side,
      (∀ i, parse_loop A fuel next token min_bp left_side ≠ .error (.out_of_bounds i)) →
      parse_loop_mem A mem fuel next token min_bp left_side =
        parse_loop A fuel next token min_bp left_side) := by
  intro fuel
  induction fuel with
  | zero =>
    constructor
    · intro next token min_bp _
      rw [parse_expression_mem, parse_expression]
    · intro next token min_bp left_side _
      rw [parse_loop_mem, parse_loop]
  | succ fuel ih =>
    constructor
    · intro next token min_bp h
      rw [parse_expression_mem_succ, parse_expression_succ]
      rw [parse_expression_succ] at h
      cases hnt : next_token A next token with
      | error err => rfl
      | ok p =>
        obtain ⟨next1, token1⟩ := p
        rw [hnt] at h
        cases hty : token1.ty <;> simp only [hty] at h ⊢
        exact ih.2 _ _ _ _ h
    · intro next token min_bp left_side h
      rw [parse_loop_mem_succ, parse_loop_succ]
      rw [parse_loop_succ] at h
      cases hnt : next_token A next token with
      | error err => rfl
      | ok p =>
        obtain ⟨next1, token1⟩ := p
        rw [hnt] at h
        cases hty : token1.ty <;> simp only [hty] at h ⊢
        all_goals
          cases hl : get_left_bp _ with
          | error e =>
            rw [hl] at h
            have he := read_bp_error _ _ hl
            exact absurd (by rw [he]) (h _)
          | ok lbp =>
            rw [hl] at h
            simp only at h ⊢
            have hl2 : get_left_bp_mem mem _ = lbp := read_bp_mem_of_ok mem _ lbp hl
            rw [hl2]
            by_cases hlt : lbp < min_bp
            · rw [if_pos hlt, if_pos hlt]
            · rw [if_neg hlt] at h
              rw [if_neg hlt, if_neg hlt]
              cases hr : get_right_bp _ with
              | error e =>
                rw [hr] at h
                have he := read_bp_error _ _ hr
                exact absurd (by rw [he]) (h _)
              | ok rbp =>
                rw [hr] at h
                simp only at h ⊢
                have hr2 : get_right_bp_mem mem _ = rbp := read_bp_mem_of_ok mem _ rbp hr
                rw [hr2]
                cases hpe : parse_expression A fuel next1 token1 rbp with
                | error e =>
                  rw [hpe] at h
                  rw [ih.1, hpe]
                  intro i hc
                  rw [hpe] at hc
                  exact h i hc
                | ok q =>
                  obtain ⟨right, next2, token2⟩ := q
                  rw [hpe] at h
                  rw [ih.1, hpe]
                  · exact ih.2 _ _ _ _ h
                  · intro i hc
                    rw [hpe] at hc
                    cases hc


/-! ## The evaluator on what the parser returns -/

/-- What `7 % 0` is parsed into depends on one byte behind the table, the one
at index 24 that `get_left_bp` reads for `%`: unless that byte is negative, the
parser returns the remainder node of 7 and 0. -/
theorem parse_mem_remainder_by_zero {F : Type} (A : DoubleOps F) (mem : Nat → Int)
    (token : Token F) :
    parse_expression_mem A mem 4 "7 % 0".toList token 0 =
      if mem 24 < 0 then
        .ok (.number (A.ofInt 7), " 0".toList, { ty := .TT_PERCENT, maybe_number := A.ofInt 7 })
      else .ok (.expr OP_REM (.number (A.ofInt 7)) (.number (A.ofInt 0)), [],
           { ty := .TT_EOI, maybe_number := A.ofInt 0 }) := rfl

/-- C17, as stated, fails: with zero bytes behind the table the input `7 % 0` is
parsed into the remainder node of 7 and 0, and `eval` returns no number for it:
the `%` of C with a zero divisor is undefined. -/
theorem eval_remainder_by_zero_parsed :
    parse_expression_mem exactOps (fun _ => 0) 4 "7 % 0".toList token0 0 =
      .ok (.expr OP_REM (.number (some 7)) (.number (some 0)), [],
           { ty := .TT_EOI, maybe_number := some 0 }) ∧
    eval exactOps (.expr OP_REM (.number (some 7)) (.number (some 0))) =
      .error .bad_remainder ∧
    ¬ ∃ v, eval exactOps (.expr OP_REM (.number (some 7)) (.number (some 0))) = .ok v := by
  refine ⟨rfl, rfl, ?_⟩
  rintro ⟨v, hv⟩
  have h : eval exactOps (.expr OP_REM (.number (some 7)) (.number (some 0))) =
      .error .bad_remainder := rfl
  rw [h] at hv
  exact Except.noConfusion hv

/-- C17, amended.  On every tree that `parse_expression` returns, whatever lies
behind the table, every node carries the tag of a literal or of one of the six
operators, and `eval` does not reach `not impl`: it returns a number, or stops
at a remainder that C leaves undefined (an operand without a `long long`, a
zero divisor, `LLONG_MIN % -1`).  On a tree without a remainder node it
returns a number. -/
theorem eval_on_parsed {F : Type} (A : DoubleOps F) (mem : Nat → Int) (fuel : Nat)
    (next : List Char) (token : Token F) (min_bp : Int)
    (tree : Expression F) (next2 : List Char) (token2 : Token F)
    (h : parse_expression_mem A mem fuel next token min_bp = .ok (tree, next2, token2)) :
    (∀ tag ∈ node_tags tree, tag = ET_NUMBER ∨ tag = OP_ADD ∨ tag = OP_SUB ∨ tag = OP_MUL ∨
      tag = OP_DIV ∨ tag = OP_REM ∨ tag = OP_EXP) ∧
    eval A tree ≠ .error .not_impl ∧
    ((∃ v, eval A tree = .ok v) ∨ eval A tree = .error .bad_conversion ∨
      eval A tree = .error .bad_remainder) ∧
    (OP_REM ∉ node_tags tree → ∃ v, eval A tree = .ok v) := by
  have ht := (parse_mem_operator_tree A mem fuel).1 next token min_bp tree next2 token2 h
  have he := eval_operator_tree A tree ht
  refine ⟨node_tags_operator_tree tree ht, ?_, he, eval_without_remainder A tree ht⟩
  intro hc
  rcases he with ⟨v, hv⟩ | hv | hv <;> rw [hc] at hv <;> cases hv

/-- Witness of C17: with zero bytes behind the table `7 % 2` is parsed into a
remainder node, on which `eval` returns 1. -/
theorem eval_on_parsed_witness :
    parse_expression_mem exactOps (fun _ => 0) 4 "7 % 2".toList token0 0 =
      .ok (.expr OP_REM (.number (some 7)) (.number (some 2)), [],
           { ty := .TT_EOI, maybe_number := some 2 }) ∧
    eval exactOps (.expr OP_REM (.number (some 7)) (.number (some 2))) ≠ .error .not_impl ∧
    eval exactOps (.expr OP_REM (.number (some 7)) (.number (some 2))) =
      .ok (exactOps.ofInt 1) :=
  ⟨rfl,
   (eval_on_parsed exactOps (fun _ => 0) 4 "7 % 2".toList token0 0 _ _ _ rfl).2.1,
   rfl⟩

/-! ## The parser ends -/

/-- C20.  Whatever lies behind the table, `parse_expression` ends on every input
and every `min_bp`: given more fuel than the input has characters it returns a
tree, with the cursor at a proper suffix of the input, or stops with a lex
error or one of the two parse errors, and more fuel changes nothing.  Every
call of `next_token` leaves the cursor at a suffix of where it was, a proper one
unless the token is the end of input; every call of `parse_expression` that
returns has moved the cursor forward; and an iteration of the loop that goes on
has moved it by at least two characters, one for the operator and one for the
operand. -/
theorem parse_expression_terminates {F : Type} (A : DoubleOps F) (mem : Nat → Int)
    (next : List Char) (token : Token F) (min_bp : Int) (fuel : Nat)
    (hfuel : next.length < fuel) :
    ((∃ tree next2 token2,
        parse_expression_mem A mem fuel next token min_bp = .ok (tree, next2, token2) ∧
        next2 <:+ next ∧ next2.length < next.length) ∨
      (∃ c, parse_expression_mem A mem fuel next token min_bp =
        .error (.invalid_character c)) ∨
      (∃ id, parse_expression_mem A mem fuel next token min_bp = .error (.invalid_token id)) ∨
      (∃ id, parse_expression_mem A mem fuel next token min_bp =
        .error (.token_not_impl id))) ∧
    parse_expression_mem A mem fuel next token min_bp =
      parse_expression_mem A mem (next.length + 1) next token min_bp ∧
    (∀ (cursor : List Char) (tk : Token F) (cursor1 : List Char) (tk1 : Token F),
      next_token A cursor tk = .ok (cursor1, tk1) →
      cursor1 <:+ cursor ∧ (tk1.ty ≠ .TT_EOI → cursor1.length < cursor.length)) ∧
    (∀ (n : Nat) (cursor : List Char) (tk : Token F) (bp : Int) (tree : Expression F)
      (cursor2 : List Char) (tk2 : Token F),
      parse_expression_mem A mem n cursor tk bp = .ok (tree, cursor2, tk2) →
      cursor2 <:+ cursor ∧ cursor2.length < cursor.length) ∧
    (∀ (n : Nat) (cursor : List Char) (tk : Token F) (cursor1 : List Char) (tk1 : Token F)
      (bp : Int) (right : Expression F) (cursor2 : List Char) (tk2 : Token F),
      next_token A cursor tk = .ok (cursor1, tk1) → tk1.ty ≠ .TT_EOI →
      parse_expression_mem A mem n cursor1 tk1 bp = .ok (right, cursor2, tk2) →
      cursor2 <:+ cursor ∧ cursor2.length + 2 ≤ cursor.length) := by
  refine ⟨?_, parse_expression_mem_fuel A mem next token min_bp fuel hfuel, ?_, ?_, ?_⟩
  · cases hp : parse_expression_mem A mem fuel next token min_bp with
    | ok q =>
      obtain ⟨tree, next2, token2⟩ := q
      exact Or.inl ⟨tree, next2, token2, rfl,
        (parse_mem_progress A mem fuel).1 _ _ _ _ _ _ hp⟩
    | error e =>
      have hk := (parse_mem_error_kinds A mem fuel).1 _ _ _ _ hp
      have hne := (parse_mem_enough_fuel A mem fuel).1 next token min_bp hfuel
      rcases hk with ⟨c, hc⟩ | ⟨id, hid⟩ | ⟨id, hid⟩ | hoof
      · exact Or.inr (Or.inl ⟨c, by rw [hc]⟩)
      · exact Or.inr (Or.inr (Or.inl ⟨id, by rw [hid]⟩))
      · exact Or.inr (Or.inr (Or.inr ⟨id, by rw [hid]⟩))
      · exact absurd (by rw [hp, hoof]) hne
  · intro cursor tk cursor1 tk1 h
    exact ⟨next_token_suffix A cursor tk cursor1 tk1 h,
      (next_token_length A cursor tk cursor1 tk1 h).2⟩
  · intro n cursor tk bp tree cursor2 tk2 h
    exact (parse_mem_progress A mem n).1 _ _ _ _ _ _ h
  · intro n cursor tk cursor1 tk1 bp right cursor2 tk2 h1 hne h2
    have a1 := next_token_suffix A cursor tk cursor1 tk1 h1
    have a2 := (next_token_length A cursor tk cursor1 tk1 h1).2 hne
    have a3 := (parse_mem_progress A mem n).1 _ _ _ _ _ _ h2
    exact ⟨a3.1.trans a1, by omega⟩

/-- Witness of C20: with zero bytes behind the table, and with any fuel above
the five characters of `1 * 2`, the parser returns the tree of the product. -/
theorem parse_expression_terminates_witness :
    parse_expression_mem exactOps (fun _ => 0) 9 "1 * 2".toList token0 0 =
      parse_expression_mem exactOps (fun _ => 0) ("1 * 2".toList.length + 1)
        "1 * 2".toList token0 0 ∧
    parse_expression_mem exactOps (fun _ => 0) 9 "1 * 2".toList token0 0 =
      .ok (.expr OP_MUL (.number (some 1)) (.number (some 2)), [],
           { ty := .TT_EOI, maybe_number := some 2 }) :=
  ⟨(parse_expression_terminates exactOps (fun _ => 0) "1 * 2".toList token0 0 9
      (by decide)).2.1,
   rfl⟩

end EvalC
